import Mathlib

/-!
Verification of the FSTDict library (src/fst.h): a finite state transducer
dictionary.  The development shallowly embeds the C++ source: byte strings
are `List Nat` (each entry < 256), machine integers are `Nat`/`Int`,
`unordered_map`s are association lists kept sorted by key (faithful to the
observable behaviour: `insert` does not replace an existing key, `at` on a
missing key throws `std::out_of_range`, which is modelled by `Except`),
`shared_ptr<State>` aliasing is modelled by an explicit heap (an array of
state records addressed by index).
-/

deriving instance DecidableEq for Except

namespace FstDict

/-! ## Codec primitives (src/fst.h lines 26-47)

`WriteUint` writes the `w` bytes of `value` low-order first
(`buf = (char)value; value /= 256`).  `ReadUint` reads `w` bytes from the
stream, each time shifting the accumulator up (`value *= 256; value |= buf`);
reading past the end of the stream fails in the model (in C++ the read fails
and leaves indeterminate data).  The accumulator never overflows the `w`-byte
type: after `i` reads it is below `2^(8*i)`. -/

def WriteUint : Nat → Nat → List Nat
  | 0, _ => []
  | w + 1, value => value % 256 :: WriteUint w (value / 256)

def ReadUintAux : Nat → Nat → List Nat → Option (Nat × List Nat)
  | 0, value, bs => some (value, bs)
  | _ + 1, _, [] => none
  | w + 1, value, b :: bs => ReadUintAux w (value * 256 + b % 256) bs

def ReadUint (w : Nat) (bs : List Nat) : Option (Nat × List Nat) :=
  ReadUintAux w 0 bs

/-! ## Pairs and sorting (src/fst.h lines 79-85, 745)

`Pair::operator<` compares only the `in` strings; `std::string` comparison is
lexicographic on unsigned bytes.  `buildMAST` sorts the caller's vector with
`std::sort` on that order; the model uses insertion sort, which realises one
valid `std::sort` outcome (the orders agree whenever keys are distinct). -/

structure Pair where
  in_ : List Nat
  out : Int
  deriving DecidableEq, Repr

def lexLtB : List Nat → List Nat → Bool
  | [], [] => false
  | [], _ :: _ => true
  | _ :: _, [] => false
  | a :: as, b :: bs => if a < b then true else if b < a then false else lexLtB as bs

def pairLe (p q : Pair) : Prop := ¬ lexLtB q.in_ p.in_ = true

instance : DecidableRel pairLe := fun p q => by unfold pairLe; infer_instance

def sortPairs (l : List Pair) : List Pair := List.insertionSort pairLe l

/-- `commonPrefixLen` (src/fst.h lines 21-23).  `std::mismatch` walks `a`
comparing against `b`; once `b` is exhausted the comparison hits the string's
null terminator, which differs from any non-NUL byte of `a`, so the walk stops
at the shorter length (keys here are NUL-free). -/
def commonPrefixLen : List Nat → List Nat → Nat
  | a :: as, b :: bs => if a = b then commonPrefixLen as bs + 1 else 0
  | _, _ => 0

/-! ## Association-list maps

`unordered_map` with the operations the source uses.  The list is kept sorted
by key, which is a canonical representation of the unordered container:
`insert` does NOT replace an existing key (C++ `insert` semantics), `erase`
removes the key, `at` on a missing key throws (callers model that with
`Except`/`Option`). -/

def lookupA {α : Type} : List (Nat × α) → Nat → Option α
  | [], _ => none
  | (k, v) :: rest, key => if k = key then some v else lookupA rest key

def insertA {α : Type} : List (Nat × α) → Nat → α → List (Nat × α)
  | [], key, v => [(key, v)]
  | (k, w) :: rest, key, v =>
    if key < k then (key, v) :: (k, w) :: rest
    else if k = key then (k, w) :: rest
    else (k, w) :: insertA rest key v

def eraseA {α : Type} : List (Nat × α) → Nat → List (Nat × α)
  | [], _ => []
  | (k, w) :: rest, key => if k = key then rest else (k, w) :: eraseA rest key

/-- `std::set<int32_t>` insert: sorted, duplicates ignored. -/
def tailInsert : List Int → Int → List Int
  | [], t => [t]
  | x :: xs, t =>
    if t < x then t :: x :: xs else if x = t then x :: xs else x :: tailInsert xs t

/-! ## State (src/fst.h lines 87-185)

A `shared_ptr<State>` is a heap reference (a `Nat` index into an array of
state records); `trans` maps a byte to such a reference.  `make_shared<State>()`
value-initialises every member (id 0, empty maps, `isFinal` false, `hcode` 0).
`renew` does not reset `id`.  `operator==` does not compare `id`; it compares
the maps with successor identity (heap reference equality).  The `hcode`
updates in `setOutput`/`setTransition` happen even when the `insert` was a
no-op because the key was already present, exactly as in the source. -/

structure StateData where
  id : Int
  trans : List (Nat × Nat)
  output : List (Nat × Int)
  tail : List Int
  isFinal : Bool
  hcode : Int
  deriving DecidableEq, Repr

instance : Inhabited StateData := ⟨⟨0, [], [], [], false, 0⟩⟩

def stRemoveOutput (s : StateData) (ch : Nat) : StateData :=
  let s1 :=
    match lookupA s.output ch with
    | some v => if v ≠ 0 then { s with hcode := s.hcode - ((ch : Int) + v) * 8191 } else s
    | none => s
  { s1 with output := eraseA s1.output ch }

def stSetOutput (s : StateData) (ch : Nat) (out : Int) : StateData :=
  if out = 0 then s
  else { s with
          output := insertA s.output ch out,
          hcode := s.hcode + ((ch : Int) + out) * 8191 }

def stSetTransition (s : StateData) (ch : Nat) (next : Nat) (nextId : Int) : StateData :=
  { s with
     trans := insertA s.trans ch next,
     hcode := s.hcode + ((ch : Int) + nextId) * 1001 }

def stRenew (s : StateData) : StateData :=
  { s with trans := [], output := [], tail := [], isFinal := false, hcode := 0 }

def stateEqb (a b : StateData) : Bool :=
  a.hcode == b.hcode && a.isFinal == b.isFinal &&
    a.trans == b.trans && a.output == b.output && a.tail == b.tail

/-! ## The heap of states -/

abbrev Heap := Array StateData

def heapGet (h : Heap) (r : Nat) : StateData := h.getD r default

def setOutput (h : Heap) (r ch : Nat) (out : Int) : Heap :=
  h.setD r (stSetOutput (heapGet h r) ch out)

def removeOutput (h : Heap) (r ch : Nat) : Heap :=
  h.setD r (stRemoveOutput (heapGet h r) ch)

/-- `buf[a]->setTransition(ch, next)`: the hash update reads `next->id` at
call time. -/
def setTransition (h : Heap) (a ch next : Nat) : Heap :=
  h.setD a (stSetTransition (heapGet h a) ch next (heapGet h next).id)

def renew (h : Heap) (r : Nat) : Heap := h.setD r (stRenew (heapGet h r))

def addTail (h : Heap) (r : Nat) (t : Int) : Heap :=
  h.setD r { heapGet h r with tail := tailInsert (heapGet h r).tail t }

def setFinal (h : Heap) (r : Nat) : Heap :=
  h.setD r { heapGet h r with isFinal := true }

/-! ## MAST and its builder (src/fst.h lines 583-595, 742-848) -/

structure Mast where
  initialState : Nat
  states : List Nat
  finalStates : List Nat
  heap : Heap
  deriving DecidableEq, Repr

/-- Builder state: the heap, the states registered so far (`m->states` /
`m->finalStates` hold heap references in insertion order) and the registry
`dict : hcode → bucket of references` in insertion order. -/
structure BuildSt where
  heap : Heap
  states : List Nat
  finalStates : List Nat
  dict : List (Int × List Nat)
  deriving DecidableEq, Repr

/-- `Mast::addState` (lines 589-595): assigns `id = states.size()` to the
state, appends it, and appends to `finalStates` when final. -/
def addStateB (b : BuildSt) (r : Nat) : BuildSt :=
  let s := heapGet b.heap r
  { b with
    heap := b.heap.setD r { s with id := (b.states.length : Int) },
    states := b.states ++ [r],
    finalStates := if s.isFinal then b.finalStates ++ [r] else b.finalStates }

inductive BuildErr where
  /-- `output.at(ch)` threw `std::out_of_range` for state reference `r`. -/
  | outputAt (r ch : Nat)
  /-- `dict.at(k)` threw `std::out_of_range`. -/
  | dictAt (k : Int)
  deriving DecidableEq, Repr

def dictFind : List (Int × List Nat) → Int → Option (List Nat)
  | [], _ => none
  | (k, v) :: rest, key => if k = key then some v else dictFind rest key

/-- `dict.insert(make_pair(k, {}))`: appends an empty bucket (no-op when the
key exists; callers only use it when the key is absent). -/
def dictInsertEmpty (d : List (Int × List Nat)) (k : Int) : List (Int × List Nat) :=
  match dictFind d k with
  | some _ => d
  | none => d ++ [(k, [])]

/-- `dict.at(k).push_back(r)`: throws when `k` is absent. -/
def dictPushE (d : List (Int × List Nat)) (k : Int) (r : Nat) :
    Except BuildErr (List (Int × List Nat)) :=
  match dictFind d k with
  | none => .error (.dictAt k)
  | some _ =>
    .ok (d.map fun kv => if kv.1 = k then (kv.1, kv.2 ++ [r]) else kv)

/-- Scan a registry bucket for a state structurally equal (`operator==`) to
`target`. -/
def bucketScan (h : Heap) (target : StateData) : List Nat → Option Nat
  | [] => none
  | c :: cs => if stateEqb (heapGet h c) target then some c else bucketScan h target cs

/-- One iteration of the freeze loop inside the entry loop (lines 772-793):
look up `buf[i]` in the registry, clone-and-register when no structurally
equal frozen state exists, then `buf[i]->renew()` (in both branches) and
`buf[i-1]->setTransition(prev[i-1], s)`.  A fresh clone is pushed into the
bucket `dict.at(buf[i]->hcode)` read before the renew. -/
def freezeStepMain (b : BuildSt) (i chByte : Nat) : Except BuildErr BuildSt := do
  let target := heapGet b.heap i
  let bucketO := dictFind b.dict target.hcode
  let d1 := match bucketO with
    | some _ => b.dict
    | none => dictInsertEmpty b.dict target.hcode
  let sOpt := match bucketO with
    | some cs => bucketScan b.heap target cs
    | none => none
  let (b2, s) ←
    match sOpt with
    | some s => pure ({ b with dict := d1 }, s)
    | none => do
      let sref := b.heap.size
      let b1 := addStateB { b with heap := b.heap.push target, dict := d1 } sref
      let d2 ← dictPushE b1.dict target.hcode sref
      pure ({ b1 with dict := d2 }, sref)
  let h2 := renew b2.heap i
  pure { b2 with heap := setTransition h2 (i - 1) chByte s }

/-- One iteration of the flush loop (lines 823-844).  It differs from
`freezeStepMain`: in the clone branch `buf[i]->renew()` runs before
`addState`, so the subsequent `dict.at(buf[i]->hcode)` reads the renewed
hash 0 and pushes the clone into bucket 0 (throwing when no bucket 0
exists); in the reuse branch `buf[i]` is not renewed at all. -/
def freezeStepFlush (b : BuildSt) (i chByte : Nat) : Except BuildErr BuildSt := do
  let target := heapGet b.heap i
  let bucketO := dictFind b.dict target.hcode
  let d1 := match bucketO with
    | some _ => b.dict
    | none => dictInsertEmpty b.dict target.hcode
  let sOpt := match bucketO with
    | some cs => bucketScan b.heap target cs
    | none => none
  let (b2, s) ←
    match sOpt with
    | some s => pure ({ b with dict := d1 }, s)
    | none => do
      let sref := b.heap.size
      let h1 := renew (b.heap.push target) i
      let b1 := addStateB { b with heap := h1, dict := d1 } sref
      let d2 ← dictPushE b1.dict (heapGet b1.heap i).hcode sref
      pure ({ b1 with dict := d2 }, sref)
  pure { b2 with heap := setTransition b2.heap (i - 1) chByte s }

/-- The freeze loop of one entry: `for (i = prev.length(); i > prefixLen; --i)`.
`k` is the number of remaining iterations; the current index is `pl + k`. -/
def freezeLoopMain (prev : List Nat) (pl : Nat) : Nat → BuildSt → Except BuildErr BuildSt
  | 0, b => .ok b
  | k + 1, b => do
    let i := pl + k + 1
    let b1 ← freezeStepMain b i (prev.getD (i - 1) 0)
    freezeLoopMain prev pl k b1

/-- `for (i = prefixLen+1; i < in.length(); ++i) buf[i-1]->setTransition(in[i-1], buf[i]);`
(lines 794-796).  `k` counts the remaining iterations, `i` the current index. -/
def extendLoop (inStr : List Nat) : Nat → Nat → Heap → Heap
  | _, 0, h => h
  | i, k + 1, h =>
    extendLoop inStr (i + 1) k (setTransition h (i - 1) (inStr.getD (i - 1) 0) i)

/-- `for (const auto &elem : buf[j]->trans) buf[j]->setOutput(ch, outSuff);`
(lines 807-810): iterate a snapshot of the transition list (the loop mutates
only the output map). -/
def propagate (r : Nat) (outSuff : Int) : List (Nat × Nat) → Heap → Heap
  | [], h => h
  | (ch, _) :: rest, h => propagate r outSuff rest (setOutput h r ch outSuff)

/-- The output-redistribution loop (lines 800-814): `j` runs from 1 to
`prefixLen`; `buf[j-1]->output.at(in[j-1])` throws when the key is absent;
on equality with `out` the loop breaks with `out = 0`; otherwise the edge
output is removed, prepended onto every outgoing edge of `buf[j]`, and added
to `buf[j]`'s tail when `buf[j]` is final and the value nonzero. -/
def redisLoop (inStr : List Nat) : Nat → Nat → Int → BuildSt →
    Except BuildErr (BuildSt × Int)
  | _, 0, out, b => .ok (b, out)
  | j, k + 1, out, b => do
    let chj := inStr.getD (j - 1) 0
    match lookupA (heapGet b.heap (j - 1)).output chj with
    | none => .error (.outputAt (j - 1) chj)
    | some v =>
      if v = out then .ok (b, 0)
      else
        let outSuff := v
        let h1 := removeOutput b.heap (j - 1) chj
        let h2 := propagate j outSuff (heapGet h1 j).trans h1
        let h3 := if (heapGet h2 j).isFinal && outSuff != 0 then addTail h2 j outSuff else h2
        redisLoop inStr (j + 1) k out { b with heap := h3 }

/-- One iteration of the entry loop (lines 767-821). -/
def processEntry (b : BuildSt) (prev : List Nat) (p : Pair) :
    Except BuildErr (BuildSt × List Nat) := do
  let inStr := p.in_
  let out := p.out
  let fZero := out == 0
  let pl := commonPrefixLen inStr prev
  let b1 ← freezeLoopMain prev pl (prev.length - pl) b
  let h1 := extendLoop inStr (pl + 1) (inStr.length - (pl + 1)) b1.heap
  let h2 := if inStr ≠ prev then setFinal h1 inStr.length else h1
  let (b2, out2) ← redisLoop inStr 1 pl out { b1 with heap := h2 }
  let h3 :=
    if inStr ≠ prev then setOutput b2.heap pl (inStr.getD pl 0) out2
    else if fZero || out2 != 0 then addTail b2.heap inStr.length out2
    else b2.heap
  pure ({ b2 with heap := h3 }, inStr)

def mainLoop : List Pair → BuildSt → List Nat → Except BuildErr (BuildSt × List Nat)
  | [], b, prev => .ok (b, prev)
  | p :: rest, b, prev => do
    let (b1, prev1) ← processEntry b prev p
    mainLoop rest b1 prev1

/-- The flush loop (lines 822-844): `for (i = prev.length(); i > 0; --i)`. -/
def flushLoop (prev : List Nat) : Nat → BuildSt → Except BuildErr BuildSt
  | 0, b => .ok b
  | k + 1, b => do
    let b1 ← freezeStepFlush b (k + 1) (prev.getD k 0)
    flushLoop prev k b1

def maxWordLen : List Pair → Nat
  | [] => 0
  | p :: rest => Nat.max p.in_.length (maxWordLen rest)

/-- `buildMAST` (lines 742-848).  Sorts the caller's vector in place (the
first component of the result is the mutated vector), allocates the ring
buffer `buf[0..maxLen]` as heap references `0..maxLen`, runs the entry loop
and the flush, then sets the initial state to `buf[0]` and registers it. -/
def buildMAST (input : List Pair) : List Pair × Except BuildErr Mast :=
  let sorted := sortPairs input
  let maxLen := maxWordLen sorted
  let b0 : BuildSt := ⟨Array.mkArray (maxLen + 1) default, [], [], []⟩
  (sorted, do
    let (b1, prev) ← mainLoop sorted b0 []
    let b2 ← flushLoop prev prev.length b1
    let b3 := addStateB b2 0
    pure { initialState := 0, states := b3.states, finalStates := b3.finalStates,
           heap := b3.heap })

/-! ## Instructions (src/fst.h lines 187-213)

An `Instruction` is one 32-bit cell, a union of an op view
(`op` byte 0, `ch` byte 1, `jump` bytes 2-3, little-endian x86 layout) and a
raw `int32_t` view `v32`.  The model keeps the cell as a `Nat` below `2^32`
holding the bit pattern, with the two views as decoders. -/

def opAccept : Nat := 1
def opAcceptBreak : Nat := 2
def opMatch : Nat := 3
def opBreak : Nat := 4
def opOutput : Nat := 5
def opOutputBreak : Nat := 6

def mkOp (op ch jump : Nat) : Nat := op % 256 + 256 * (ch % 256) + 65536 * (jump % 65536)

/-- The bit pattern of an `int32_t` stored in a cell (`static_cast<uint32_t>`). -/
def intToU32 (v : Int) : Nat := (v % 4294967296).toNat

/-- Reading a cell as `v32` (two's complement). -/
def u32ToInt (n : Nat) : Int :=
  if n % 4294967296 < 2147483648 then ((n % 4294967296 : Nat) : Int)
  else ((n % 4294967296 : Nat) : Int) - 4294967296

def opOf (cell : Nat) : Nat := cell % 256
def chOf (cell : Nat) : Nat := cell / 256 % 256
def jumpOf (cell : Nat) : Nat := cell / 65536 % 65536

/-! ## Compiler (src/fst.h lines 658-739)

`Mast::buildMachine` emits a provisional instruction stream in forward state
order.  `EmitSt` is its running state: the provisional program, the data
array, `addrMap : state id → program length when the state was finished`, and
the `*err` output string. -/

structure EmitSt where
  prog : List Nat
  data : List Int
  addrMap : List (Int × Nat)
  err : Option String
  deriving DecidableEq, Repr

inductive MachErr where
  /-- `s->trans.at(ch)` threw (unreachable: `ch` is drawn from `trans`). -/
  | transAt (sid : Int) (ch : Nat)
  /-- `s->output.at(ch)` threw `std::out_of_range` for state id `sid`. -/
  | outputAt (sid : Int) (ch : Nat)
  /-- `itAddr->second` dereferenced the end iterator (undefined behaviour in
  the source, reached whenever the successor has no recorded address); the
  payload is the value of `*err` at that point. -/
  | addrDeref (errSoFar : Option String)
  deriving DecidableEq, Repr

def lookupI {α : Type} : List (Int × α) → Int → Option α
  | [], _ => none
  | (k, v) :: rest, key => if k = key then some v else lookupI rest key

/-- `unordered_map::insert`: no replacement when the key exists. -/
def insertI {α : Type} (l : List (Int × α)) (k : Int) (v : α) : List (Int × α) :=
  match lookupI l k with
  | some _ => l
  | none => l ++ [(k, v)]

/-- The error text of lines 676-679.  `ss << hex << ch` formats a `uint8_t`,
which `ostream` prints as the raw character. -/
def undefMsg (sid : Int) (ch : Nat) : String :=
  "next addr is undefined: state(" ++ toString sid ++ "), input("
    ++ String.mk [Char.ofNat ch] ++ ")"

/-- The outgoing bytes of a state in the order the compiler walks them:
`edges` is a `std::set` filled from `trans`, iterated `crbegin()..crend()`,
i.e. in descending byte order. -/
def edgesDesc (s : StateData) : List Nat := (s.trans.map Prod.fst).reverse

/-- Emission of one transition (lines 670-709).  `isFirst` is
`it == edges.crbegin()`.  `next->id` has no entry in `addrMap` and the
successor is not final: `*err` is set; either way the code then dereferences
`itAddr`, which is the end iterator in both of those cases. -/
def emitEdge (h : Heap) (s : StateData) (isFirst : Bool) (ch : Nat) (st : EmitSt) :
    Except MachErr EmitSt := do
  let next ←
    match lookupA s.trans ch with
    | some n => pure n
    | none => .error (.transAt s.id ch)
  let out ←
    match lookupA s.output ch with
    | some o => pure o
    | none => .error (.outputAt s.id ch)
  let nextSt := heapGet h next
  let itAddr := lookupI st.addrMap nextSt.id
  let err1 := if itAddr = none ∧ ¬ nextSt.isFinal then some (undefMsg s.id ch) else st.err
  match itAddr with
  | none => .error (.addrDeref err1)
  | some a =>
    let jump := st.prog.length - a + 1
    let op :=
      if out != 0 then (if isFirst then opOutputBreak else opOutput)
      else if isFirst then opBreak else opMatch
    let (prog1, jump1) :=
      if jump > 65535 then (st.prog ++ [jump % 4294967296], 0) else (st.prog, jump)
    let prog2 := if out != 0 then prog1 ++ [intToU32 out] else prog1
    pure { st with prog := prog2 ++ [mkOp op ch jump1], err := err1 }

def emitEdges (h : Heap) (s : StateData) : Bool → List Nat → EmitSt →
    Except MachErr EmitSt
  | _, [], st => .ok st
  | isFirst, ch :: rest, st => do
    let st1 ← emitEdge h s isFirst ch st
    emitEdges h s false rest st1

/-- Emission for a final state (lines 710-732): when the tail set is nonempty,
push a raw cell holding `data.size()` before the tails are appended, append
the tails (in ascending order, as `std::set` iterates), push a raw cell with
the new `data.size()`; then push the accept op cell, whose opcode is `Accept`
when the state has NO outgoing transitions and `AcceptBreak` otherwise, with
`ch = 1` iff a tail range was emitted and `jump = 0`. -/
def emitFinal (s : StateData) (st : EmitSt) : EmitSt :=
  if s.isFinal then
    let (prog1, data1) :=
      if s.tail.isEmpty then (st.prog, st.data)
      else
        let d2 := st.data ++ s.tail
        (st.prog ++ [intToU32 (st.data.length : Int), intToU32 (d2.length : Int)], d2)
    let op := if s.trans.isEmpty then opAccept else opAcceptBreak
    let chField := if s.tail.isEmpty then 0 else 1
    { st with prog := prog1 ++ [mkOp op chField 0], data := data1 }
  else st

/-- One state's emission followed by `addrMap.insert(s->id, prog.size())`
(line 733). -/
def emitState (h : Heap) (r : Nat) (st : EmitSt) : Except MachErr EmitSt := do
  let s := heapGet h r
  let st1 ← emitEdges h s true (edgesDesc s) st
  let st2 := emitFinal s st1
  pure { st2 with addrMap := insertI st2.addrMap s.id st2.prog.length }

def emitStates (h : Heap) : List Nat → EmitSt → Except MachErr EmitSt
  | [], st => .ok st
  | r :: rest, st => do
    let st1 ← emitState h r st
    emitStates h rest st1

/-- The provisional stream, data array, address map and error string that
`buildMachine`'s main loop produces (lines 658-734). -/
def buildMachineProv (m : Mast) : Except MachErr EmitSt :=
  emitStates m.heap m.states ⟨[], [], [], none⟩

structure FST where
  prog : List Nat
  data : List Int
  deriving DecidableEq, Repr

/-- `Mast::buildMachine` (lines 658-739).  Line 736 runs
`reverse_copy(prog.begin(), prog.end(), t->prog.begin())` where `t->prog` is
the default-constructed EMPTY vector of the fresh `FST`: the copy writes
through the begin iterator of a vector of size 0 (out-of-bounds writes,
undefined behaviour) and never changes the vector's size, so the returned
program is observably empty. -/
def buildMachine (m : Mast) : Except MachErr (FST × Option String) := do
  let st ← buildMachineProv m
  pure ({ prog := [], data := st.data }, st.err)

inductive FstErr where
  | build (e : BuildErr)
  | mach (e : MachErr)
  deriving DecidableEq, Repr

/-- `BuildFST` (lines 851-855): `buildMAST` then `buildMachine`.  The first
component is the caller's vector after the in-place sort. -/
def BuildFST (input : List Pair) : List Pair × Except FstErr (FST × Option String) :=
  let (sorted, r) := buildMAST input
  (sorted,
    match r with
    | .error e => .error (.build e)
    | .ok m =>
      match buildMachine m with
      | .error e => .error (.mach e)
      | .ok fe => .ok fe)

/-! ## Codec (src/fst.h lines 441-579)

The byte stream is a `List Nat` (entries < 256).  `FST::Write` returns
`false` from the `default` branch in two situations: an unknown opcode, and —
via the missing `break` at the end of the `Output`/`OutputBreak` case — every
`Output` op whose 16-bit jump field is 0 (a long jump).  The model returns
`none` there (C++ also leaves a partial stream behind, which a failed `Write`
makes unusable).  Reading an op cell's trailing raw cells past the end of
`prog` is out of bounds in C++; the model returns `none`. -/

def writeCells : List Nat → Option (List Nat)
  | [] => some []
  | cell :: rest =>
    let op := opOf cell
    let pre := WriteUint 1 op ++ WriteUint 1 (chOf cell)
    if op = opAccept ∨ op = opAcceptBreak then
      if chOf cell = 0 then (writeCells rest).map (pre ++ ·)
      else
        match rest with
        | a :: b :: rest2 =>
          (writeCells rest2).map fun t => pre ++ WriteUint 4 a ++ WriteUint 4 b ++ t
        | _ => none
    else if op = opMatch ∨ op = opBreak then
      if jumpOf cell ≠ 0 then
        (writeCells rest).map fun t => pre ++ WriteUint 2 (jumpOf cell) ++ t
      else
        match rest with
        | a :: rest2 =>
          (writeCells rest2).map fun t => pre ++ WriteUint 2 0 ++ WriteUint 4 a ++ t
        | _ => none
    else if op = opOutput ∨ op = opOutputBreak then
      if jumpOf cell ≠ 0 then
        match rest with
        | a :: rest2 =>
          (writeCells rest2).map fun t =>
            pre ++ WriteUint 2 (jumpOf cell) ++ WriteUint 4 a ++ t
        | _ => none
      else none
    else none

def writeData : List Int → List Nat
  | [] => []
  | v :: rest => WriteUint 4 (intToU32 v) ++ writeData rest

/-- `FST::Write` (lines 441-508): `dataLen` (`size_t`, 8 bytes), the data
values, `progLen` (the CELL count of the program), then the instruction
stream.  `none` models `return false`. -/
def FST.Write (f : FST) : Option (List Nat) := do
  let body ← writeCells f.prog
  pure (WriteUint 8 f.data.length ++ writeData f.data
    ++ WriteUint 8 f.prog.length ++ body)

def readData : Nat → List Nat → Option (List Int × List Nat)
  | 0, bs => some ([], bs)
  | n + 1, bs => do
    let (v, bs1) ← ReadUint 4 bs
    let (vs, bs2) ← readData n bs1
    pure (u32ToInt v :: vs, bs2)

/-- The program-reading loop of `FST::Read` (lines 521-577): one iteration
per `pc`, pushing 1-3 cells.  Note the loop bound read from the stream counts
iterations, while `Write` emitted the total cell count. -/
def readProg : Nat → List Nat → Option (List Nat × List Nat)
  | 0, bs => some ([], bs)
  | n + 1, bs => do
    let (op, bs1) ← ReadUint 1 bs
    let (ch, bs2) ← ReadUint 1 bs1
    if op = opAccept ∨ op = opAcceptBreak then
      if ch = 0 then do
        let (cells, bs3) ← readProg n bs2
        pure (mkOp op ch 0 :: cells, bs3)
      else do
        let (a, bs3) ← ReadUint 4 bs2
        let (b, bs4) ← ReadUint 4 bs3
        let (cells, bs5) ← readProg n bs4
        pure (mkOp op ch 0 :: a :: b :: cells, bs5)
    else if op = opMatch ∨ op = opBreak then do
      let (jump, bs3) ← ReadUint 2 bs2
      if jump ≠ 0 then do
        let (cells, bs4) ← readProg n bs3
        pure (mkOp op ch jump :: cells, bs4)
      else do
        let (a, bs4) ← ReadUint 4 bs3
        let (cells, bs5) ← readProg n bs4
        pure (mkOp op ch jump :: a :: cells, bs5)
    else if op = opOutput ∨ op = opOutputBreak then do
      let (jump, bs3) ← ReadUint 2 bs2
      let (a, bs4) ← ReadUint 4 bs3
      if jump ≠ 0 then do
        let (cells, bs5) ← readProg n bs4
        pure (mkOp op ch jump :: a :: cells, bs5)
      else do
        let (b, bs5) ← ReadUint 4 bs4
        let (cells, bs6) ← readProg n bs5
        pure (mkOp op ch jump :: a :: b :: cells, bs6)
    else none

/-- `FST::Read` (lines 511-579).  `none` models both `return false` (unknown
opcode) and a read past the end of the stream (in C++ the `istream` read
fails and the loop runs on indeterminate bytes, or the `dataLen`-sized
allocation fails outright). -/
def FST.Read (bs : List Nat) : Option FST := do
  let (dataLen, bs1) ← ReadUint 8 bs
  let (data, bs2) ← readData dataLen bs1
  let (progLen, bs3) ← ReadUint 8 bs2
  let (prog, _) ← readProg progLen bs3
  pure { prog := prog, data := data }

/-! ## Virtual machine (src/fst.h lines 215-397)

`FST::run`'s registers: `pc` is a C++ `int` (the loop guard
`pc < prog.size()` promotes it to `size_t`, so a negative `pc` exits the
loop; the model's guard `0 ≤ pc ∧ pc < len` captures that).  `op` and `out`
are uninitialised until first assigned; the model starts them at 0 (`lastOp
= 0` is no opcode, so a run whose loop never executes is not accepted).
`ch != input[hd]` compares the unsigned `ch` byte against a (signed) `char`
after integer promotion: `charVal` is the promoted value.  Reads of raw cells
at `pc+1`/`pc+2` beyond the program (out of bounds in C++) yield cell 0, and
`data[from..to)` with an ill-formed range yields the empty slice. -/

structure Config where
  pc : Int
  hd : Nat
  out : List Int
  deriving DecidableEq, Repr

structure RunSt where
  pc : Int
  hd : Nat
  out : Int
  lastOp : Nat
  snap : List Config
  deriving DecidableEq, Repr

inductive StepR where
  | cont (s : RunSt)
  | done (snap : List Config) (accept : Bool)
  deriving DecidableEq, Repr

def charVal (b : Nat) : Int :=
  if b % 256 < 128 then ((b % 256 : Nat) : Int) else ((b % 256 : Nat) : Int) - 256

def cellAt (prog : List Nat) (pc : Int) : Nat := prog.getD pc.toNat 0

def dataSlice (data : List Int) (fromI toI : Int) : List Int :=
  if 0 ≤ fromI ∧ fromI ≤ toI ∧ toI ≤ (data.length : Int)
  then (data.drop fromI.toNat).take (toI - fromI).toNat else []

/-- The `L_END` label (lines 388-396): not accepted unless the head consumed
the whole input and the last opcode executed was `Accept`/`AcceptBreak`. -/
def atEnd (input : List Nat) (s : RunSt) : StepR :=
  if s.hd = input.length ∧ (s.lastOp = opAccept ∨ s.lastOp = opAcceptBreak)
  then .done s.snap true else .done s.snap false

/-- One iteration of the `while` loop of `FST::run` (lines 302-387). -/
def vmStep (prog : List Nat) (data : List Int) (input : List Nat) (s : RunSt) : StepR :=
  if 0 ≤ s.pc ∧ s.pc < (prog.length : Int) ∧ s.hd ≤ input.length then
    let cell := cellAt prog s.pc
    let o := opOf cell
    let ch := chOf cell
    let jump := jumpOf cell
    let s0 := { s with lastOp := o }
    if o = opMatch ∨ o = opBreak then
      if s0.hd = input.length then atEnd input s0
      else if (ch : Int) ≠ charVal (input.getD s0.hd 0) then
        if o = opBreak then .done s0.snap false
        else .cont { s0 with pc := s0.pc + (if jump = 0 then 2 else 1) }
      else
        let pc2 :=
          if jump > 0 then s0.pc + (jump : Int)
          else s0.pc + 1 + u32ToInt (cellAt prog (s0.pc + 1))
        .cont { s0 with pc := pc2, hd := s0.hd + 1 }
    else if o = opOutput ∨ o = opOutputBreak then
      if s0.hd = input.length then atEnd input s0
      else if (ch : Int) ≠ charVal (input.getD s0.hd 0) then
        if o = opOutputBreak then .done s0.snap false
        else .cont { s0 with pc := s0.pc + (if jump = 0 then 3 else 2) }
      else
        let outv := u32ToInt (cellAt prog (s0.pc + 1))
        let pc2 :=
          if jump > 0 then s0.pc + 1 + (jump : Int)
          else s0.pc + 2 + u32ToInt (cellAt prog (s0.pc + 2))
        .cont { s0 with pc := pc2, hd := s0.hd + 1, out := outv }
    else if o = opAccept ∨ o = opAcceptBreak then
      let c : Config :=
        if ch = 0 then ⟨s0.pc, s0.hd, [s0.out]⟩
        else ⟨s0.pc, s0.hd,
          dataSlice data (u32ToInt (cellAt prog (s0.pc + 2))) (u32ToInt (cellAt prog (s0.pc + 1)))⟩
      let s1 := { s0 with
                   pc := s0.pc + (if ch = 0 then 1 else 3),
                   snap := s0.snap ++ [c] }
      if o = opAcceptBreak ∨ s1.hd = input.length then atEnd input s1
      else .cont s1
    else .done s0.snap false
  else atEnd input s

/-- Iterating the loop for `n` steps (`.cont s` when the budget runs out). -/
def vmRun (prog : List Nat) (data : List Int) (input : List Nat) : Nat → RunSt → StepR
  | 0, s => .cont s
  | n + 1, s =>
    match vmStep prog data input s with
    | .done snap acc => .done snap acc
    | .cont s1 => vmRun prog data input n s1

/-- Termination measure of the loop: each iteration either consumes one input
byte (the head never exceeds the input length) or strictly advances the
program counter within the program. -/
def vmMeasure (prog input : List Nat) (s : RunSt) : Nat :=
  (input.length + 1 - s.hd) * (prog.length + 4)
    + min ((prog.length + 2 - s.pc).toNat) (prog.length + 3)

/-! ## Concrete objects used by the theorems -/

/-- A one-state MAST: a single final state with no transitions and no tail
(the MAST of the key set `{""}` with finality, or the shape of any accepting
leaf). -/
def mastLeaf : Mast := ⟨0, [0], [0], #[⟨0, [], [], [], true, 0⟩]⟩

/-- A MAST in which state 0 has a transition (byte 97, output 5) to state 1,
and state 1 is final; state order `[0, 1]`, so when the compiler processes
state 0 its successor has no recorded address yet. -/
def mastUnreg : Mast :=
  ⟨0, [0, 1], [1], #[⟨0, [(97, 1)], [(97, 5)], [], false, 0⟩, ⟨1, [], [], [], true, 0⟩]⟩

/-- The compiler's empty starting state. -/
def emitSt0 : EmitSt := ⟨[], [], [], none⟩

/-! ## Predicates for the round-trip development (claim C2)

`BuildFST` only ever returns the FST `⟨[], []⟩`: the program is empty because
of the `reverse_copy` collapse (see `buildMachine`), and the data array is
empty because any run of the builder that ever adds a tail value also leaves
a transition edge without an output entry on the initial state, which makes
`buildMachine`'s `output.at` throw.  The predicates below drive that
induction. -/

def lexLeB (a b : List Nat) : Bool := !lexLtB b a

/-- The output map of a state is strictly sorted by key (true of every map
the builder constructs; gives uniqueness of keys). -/
def outWF (s : StateData) : Prop :=
  List.Pairwise (fun x y : Nat × Int => x.1 < y.1) s.output

/-- State 0 (the initial state `buf[0]`) has a transition on byte `B` but no
output entry for it: `buildMachine` must throw on it. -/
def holeAt (h : Heap) (B : Nat) : Prop :=
  lookupA (heapGet h 0).output B = none ∧ lookupA (heapGet h 0).trans B ≠ none

/-- The hole invariant during the entry loop: `buf[0]`'s output entry for
byte `B` is (and stays) absent, and either the previous key still starts
with `B` (the transition will be wired when its group is frozen) or the
group has ended (`B < prev[0]`) and the transition is already wired. -/
def HolePred (h : Heap) (prev : List Nat) (B : Nat) : Prop :=
  lookupA (heapGet h 0).output B = none ∧
  ∃ p0 ps, prev = p0 :: ps ∧
    (p0 = B ∨ (B < p0 ∧ lookupA (heapGet h 0).trans B ≠ none))

/-- The clean invariant: no strip has happened, so no buffer state above 0
carries a tail, no registered state is final with a nonempty tail, state 0 is
not final, every stored output value is nonzero, and the bookkeeping facts
about heap size and registered references that make the frame reasoning go
through. -/
structure CleanInv (maxLen : Nat) (b : BuildSt) : Prop where
  hsize : maxLen < b.heap.size
  hrefs : ∀ r ∈ b.states, maxLen < r
  hlt : ∀ r ∈ b.states, r < b.heap.size
  hwf : ∀ r, outWF (heapGet b.heap r)
  hnz : ∀ r, ∀ q ∈ (heapGet b.heap r).output, q.2 ≠ 0
  hnf0 : (heapGet b.heap 0).isFinal = false
  htf : ∀ i, 1 ≤ i → i ≤ maxLen → (heapGet b.heap i).tail = []
  hclean : ∀ r ∈ b.states,
    (heapGet b.heap r).isFinal = false ∨ (heapGet b.heap r).tail = []

/-- Heap evolution that is harmless to a hole at state 0: the output map,
finality and tail of state 0 are unchanged, and present transition keys stay
present (the builder only ever inserts into `buf[0]`'s transition map). -/
def cell0Mono (h h' : Heap) : Prop :=
  (heapGet h' 0).output = (heapGet h 0).output ∧
  (heapGet h' 0).isFinal = (heapGet h 0).isFinal ∧
  (heapGet h' 0).tail = (heapGet h 0).tail ∧
  ∀ k, lookupA (heapGet h 0).trans k ≠ none → lookupA (heapGet h' 0).trans k ≠ none

/-! # Theorems -/

/-! ## Helper lemmas -/

theorem atEnd_ne_cont (input : List Nat) (s s' : RunSt) : atEnd input s ≠ .cont s' := by
  unfold atEnd; split <;> simp

theorem measure_dec_hd (A P m m' : Nat) (hA : 0 < A) (hm' : m' ≤ P + 3) :
    (A - 1) * (P + 4) + m' < A * (P + 4) + m := by
  obtain ⟨a, rfl⟩ : ∃ a, A = a + 1 := ⟨A - 1, by omega⟩
  calc (a + 1 - 1) * (P + 4) + m' = a * (P + 4) + m' := by simp
    _ < (a + 1) * (P + 4) + m := by rw [Nat.succ_mul]; omega

theorem lexLtB_asymm : ∀ a b : List Nat, lexLtB a b = true → lexLtB b a = true → False := by
  intro a
  induction a with
  | nil => intro b h1 h2; cases b <;> simp [lexLtB] at h1 h2
  | cons x xs ih =>
    intro b h1 h2
    cases b with
    | nil => simp [lexLtB] at h1
    | cons y ys =>
      simp only [lexLtB] at h1 h2
      rcases Nat.lt_trichotomy x y with hlt | heq | hgt
      · rw [if_neg (by omega), if_pos hlt] at h2; simp at h2
      · rw [if_neg (by omega), if_neg (by omega)] at h1
        rw [if_neg (by omega), if_neg (by omega)] at h2
        exact ih ys h1 h2
      · rw [if_neg (by omega), if_pos hgt] at h1; simp at h1

theorem lexLtB_neg_trans :
    ∀ a b c : List Nat, lexLtB b a = false → lexLtB c b = false → lexLtB c a = false := by
  intro a
  induction a with
  | nil => intro b c _ _; cases c <;> simp [lexLtB]
  | cons x xs ih =>
    intro b c h1 h2
    cases b with
    | nil => simp [lexLtB] at h1
    | cons y ys =>
      cases c with
      | nil => simp [lexLtB] at h2
      | cons z zs =>
        simp only [lexLtB] at h1 h2 ⊢
        rcases Nat.lt_trichotomy y x with hyx | hyx | hyx
        · rw [if_pos hyx] at h1; simp at h1
        · rcases Nat.lt_trichotomy z y with hzy | hzy | hzy
          · rw [if_pos hzy] at h2; simp at h2
          · rw [if_neg (by omega), if_neg (by omega)] at h1 h2
            rw [if_neg (by omega), if_neg (by omega)]
            exact ih ys zs h1 h2
          · rw [if_neg (by omega), if_pos (by omega)]
        · rcases Nat.lt_trichotomy z y with hzy | hzy | hzy
          · rw [if_pos hzy] at h2; simp at h2
          · rw [if_neg (by omega), if_pos (by omega)]
          · rw [if_neg (by omega), if_pos (by omega)]

instance : IsTotal Pair pairLe :=
  ⟨fun p q => by
    by_cases h : lexLtB q.in_ p.in_ = true
    · exact Or.inr fun hc => lexLtB_asymm _ _ h hc
    · exact Or.inl h⟩

instance : IsTrans Pair pairLe :=
  ⟨fun p q r h1 h2 => by
    unfold pairLe at h1 h2 ⊢
    intro hc
    have e1 : lexLtB q.in_ p.in_ = false := Bool.eq_false_iff.mpr h1
    have e2 : lexLtB r.in_ q.in_ = false := Bool.eq_false_iff.mpr h2
    rw [lexLtB_neg_trans p.in_ q.in_ r.in_ e1 e2] at hc
    exact absurd hc (by simp)⟩

/-- Every `.cont` result of `vmStep` strictly decreases `vmMeasure`: an
iteration either consumes one input byte (head strictly below the input
length beforehand) or leaves the head alone and strictly advances the
program counter from inside the program. -/
theorem vmStep_cont_measure (prog : List Nat) (data : List Int) (input : List Nat)
    {s s' : RunSt} (h : vmStep prog data input s = .cont s') :
    vmMeasure prog input s' < vmMeasure prog input s := by
  unfold vmStep at h
  split at h
  case isFalse => exact absurd h (atEnd_ne_cont input s s')
  case isTrue hg =>
    obtain ⟨hpc0, hpcLen, hhd⟩ := hg
    dsimp only at h
    split at h
    · split at h
      · exact absurd h (atEnd_ne_cont input _ s')
      · split at h
        · split at h
          · exact absurd h (by simp)
          · injection h with h
            subst h
            unfold vmMeasure
            dsimp only
            generalize (input.length + 1 - s.hd) * (prog.length + 4) = T
            split <;> omega
        · injection h with h
          subst h
          unfold vmMeasure
          dsimp only
          have e : input.length + 1 - (s.hd + 1) = (input.length + 1 - s.hd) - 1 := by omega
          rw [e]
          exact measure_dec_hd _ _ _ _ (by omega) (Nat.min_le_right _ _)
    · split at h
      · split at h
        · exact absurd h (atEnd_ne_cont input _ s')
        · split at h
          · split at h
            · exact absurd h (by simp)
            · injection h with h
              subst h
              unfold vmMeasure
              dsimp only
              generalize (input.length + 1 - s.hd) * (prog.length + 4) = T
              split <;> omega
          · injection h with h
            subst h
            unfold vmMeasure
            dsimp only
            have e : input.length + 1 - (s.hd + 1) = (input.length + 1 - s.hd) - 1 := by omega
            rw [e]
            exact measure_dec_hd _ _ _ _ (by omega) (Nat.min_le_right _ _)
      · split at h
        · split at h
          · exact absurd h (atEnd_ne_cont input _ s')
          · injection h with h
            subst h
            unfold vmMeasure
            dsimp only
            generalize (input.length + 1 - s.hd) * (prog.length + 4) = T
            split <;> omega
        · exact absurd h (by simp)

/-! ## Heap frame lemmas -/

theorem size_setD (h : Heap) (r : Nat) (s : StateData) : (h.setD r s).size = h.size := by
  unfold Array.setD; split <;> simp

theorem heapGet_setD_ne (h : Heap) (r : Nat) (s : StateData) (r' : Nat) (hne : r' ≠ r) :
    heapGet (h.setD r s) r' = heapGet h r' := by
  unfold heapGet Array.setD
  split
  · rename_i hr
    unfold Array.getD
    have hs := Array.size_set h ⟨r, hr⟩ s
    split
    · rename_i hr'
      rw [Array.get_eq_getElem, Array.getElem_set_ne h ⟨r, hr⟩ s hr'
        (by simpa using Ne.symm hne)]
      rw [dif_pos (by omega), Array.get_eq_getElem]
    · rw [dif_neg (by omega)]
  · rfl

theorem heapGet_setD_self (h : Heap) (r : Nat) (s : StateData) (hr : r < h.size) :
    heapGet (h.setD r s) r = s := by
  unfold heapGet Array.setD
  rw [dif_pos hr]
  unfold Array.getD
  have hs := Array.size_set h ⟨r, hr⟩ s
  rw [dif_pos (by omega), Array.get_eq_getElem, Array.getElem_set]
  simp

theorem heapGet_push_lt (h : Heap) (s : StateData) (r : Nat) (hr : r < h.size) :
    heapGet (h.push s) r = heapGet h r := by
  unfold heapGet Array.getD
  have := Array.size_push h s
  rw [dif_pos (by omega), dif_pos hr, Array.get_eq_getElem, Array.getElem_push, dif_pos hr,
    Array.get_eq_getElem]

theorem heapGet_push_self (h : Heap) (s : StateData) : heapGet (h.push s) h.size = s := by
  unfold heapGet Array.getD
  have := Array.size_push h s
  rw [dif_pos (by omega), Array.get_eq_getElem]
  exact Array.get_push_eq h s

theorem heapGet_oob (h : Heap) (r : Nat) (hr : h.size ≤ r) : heapGet h r = default := by
  unfold heapGet Array.getD
  rw [dif_neg (by omega)]

/-! ## State operation field lemmas -/

theorem stSetTransition_output (s : StateData) (ch n : Nat) (i : Int) :
    (stSetTransition s ch n i).output = s.output := rfl

theorem stSetTransition_isFinal (s : StateData) (ch n : Nat) (i : Int) :
    (stSetTransition s ch n i).isFinal = s.isFinal := rfl

theorem stSetTransition_tail (s : StateData) (ch n : Nat) (i : Int) :
    (stSetTransition s ch n i).tail = s.tail := rfl

theorem stSetTransition_trans (s : StateData) (ch n : Nat) (i : Int) :
    (stSetTransition s ch n i).trans = insertA s.trans ch n := rfl

theorem stSetOutput_trans (s : StateData) (ch : Nat) (v : Int) :
    (stSetOutput s ch v).trans = s.trans := by
  unfold stSetOutput; split <;> rfl

theorem stSetOutput_isFinal (s : StateData) (ch : Nat) (v : Int) :
    (stSetOutput s ch v).isFinal = s.isFinal := by
  unfold stSetOutput; split <;> rfl

theorem stSetOutput_tail (s : StateData) (ch : Nat) (v : Int) :
    (stSetOutput s ch v).tail = s.tail := by
  unfold stSetOutput; split <;> rfl

theorem stSetOutput_output (s : StateData) (ch : Nat) (v : Int) :
    (stSetOutput s ch v).output = if v = 0 then s.output else insertA s.output ch v := by
  unfold stSetOutput; split <;> simp_all

theorem stRemoveOutput_trans (s : StateData) (ch : Nat) :
    (stRemoveOutput s ch).trans = s.trans := by
  unfold stRemoveOutput
  rcases h : lookupA s.output ch with _ | v <;> simp [h] <;> split <;> rfl

theorem stRemoveOutput_isFinal (s : StateData) (ch : Nat) :
    (stRemoveOutput s ch).isFinal = s.isFinal := by
  unfold stRemoveOutput
  rcases h : lookupA s.output ch with _ | v <;> simp [h] <;> split <;> rfl

theorem stRemoveOutput_tail (s : StateData) (ch : Nat) :
    (stRemoveOutput s ch).tail = s.tail := by
  unfold stRemoveOutput
  rcases h : lookupA s.output ch with _ | v <;> simp [h] <;> split <;> rfl

theorem stRemoveOutput_output (s : StateData) (ch : Nat) :
    (stRemoveOutput s ch).output = eraseA s.output ch := by
  unfold stRemoveOutput
  rcases h : lookupA s.output ch with _ | v <;> simp [h] <;> split <;> rfl

theorem stRenew_fields (s : StateData) :
    (stRenew s).trans = [] ∧ (stRenew s).output = [] ∧ (stRenew s).tail = [] ∧
      (stRenew s).isFinal = false := ⟨rfl, rfl, rfl, rfl⟩

/-! ## Association list lemmas -/

theorem lookupA_insertA_ne {α : Type} (l : List (Nat × α)) (k : Nat) (v : α) (k' : Nat)
    (hne : k' ≠ k) : lookupA (insertA l k v) k' = lookupA l k' := by
  induction l with
  | nil => simp [insertA, lookupA, Ne.symm hne]
  | cons p rest ih =>
    obtain ⟨pk, pv⟩ := p
    unfold insertA
    split
    · simp [lookupA, Ne.symm hne]
    · split
      · rfl
      · unfold lookupA
        split <;> simp_all

theorem lookupA_insertA_not_none {α : Type} (l : List (Nat × α)) (k : Nat) (v : α) :
    lookupA (insertA l k v) k ≠ none := by
  induction l with
  | nil => simp [insertA, lookupA]
  | cons p rest ih =>
    obtain ⟨pk, pv⟩ := p
    unfold insertA
    split
    · simp [lookupA]
    · split
      · rename_i h1 h2
        subst h2
        simp [lookupA]
      · unfold lookupA
        split <;> simp_all

theorem lookupA_insertA_preserve {α : Type} (l : List (Nat × α)) (k : Nat) (v : α)
    (k' : Nat) (h : lookupA l k' ≠ none) : lookupA (insertA l k v) k' ≠ none := by
  by_cases hk : k' = k
  · subst hk; exact lookupA_insertA_not_none l k' v
  · rw [lookupA_insertA_ne l k v k' hk]; exact h

theorem lookupA_eraseA_ne {α : Type} (l : List (Nat × α)) (k k' : Nat) (hne : k' ≠ k) :
    lookupA (eraseA l k) k' = lookupA l k' := by
  induction l with
  | nil => rfl
  | cons p rest ih =>
    obtain ⟨pk, pv⟩ := p
    simp only [eraseA]
    split
    · rename_i hpk
      subst hpk
      simp only [lookupA]
      rw [if_neg (Ne.symm hne)]
    · simp only [lookupA]
      split
      · rfl
      · exact ih

theorem lookupA_none_of_keys {α : Type} (l : List (Nat × α)) (k : Nat)
    (h : ∀ p ∈ l, p.1 ≠ k) : lookupA l k = none := by
  induction l with
  | nil => rfl
  | cons p rest ih =>
    obtain ⟨pk, pv⟩ := p
    unfold lookupA
    rw [if_neg (h (pk, pv) (by simp))]
    exact ih fun q hq => h q (by simp [hq])

theorem lookupA_eraseA_self {α : Type} (l : List (Nat × α)) (k : Nat)
    (hwf : List.Pairwise (fun x y : Nat × α => x.1 < y.1) l) :
    lookupA (eraseA l k) k = none := by
  induction l with
  | nil => rfl
  | cons p rest ih =>
    obtain ⟨pk, pv⟩ := p
    rw [List.pairwise_cons] at hwf
    obtain ⟨hall, hrest⟩ := hwf
    unfold eraseA
    split
    · rename_i hpk
      subst hpk
      exact lookupA_none_of_keys rest pk fun q hq => by
        have := hall q hq
        omega
    · unfold lookupA
      split
      · simp_all
      · exact ih hrest

theorem mem_insertA {α : Type} (l : List (Nat × α)) (k : Nat) (v : α) (p : Nat × α)
    (h : p ∈ insertA l k v) : p = (k, v) ∨ p ∈ l := by
  revert h
  induction l with
  | nil =>
    intro h
    simp [insertA] at h
    simp [h]
  | cons q rest ih =>
    intro h
    obtain ⟨qk, qv⟩ := q
    unfold insertA at h
    split at h
    · rcases List.mem_cons.mp h with h | h
      · exact Or.inl h
      · exact Or.inr h
    · split at h
      · exact Or.inr h
      · rcases List.mem_cons.mp h with h | h
        · exact Or.inr (by simp [h])
        · rcases ih h with h | h
          · exact Or.inl h
          · exact Or.inr (by simp [h])

theorem pairwise_insertA {α : Type} (l : List (Nat × α)) (k : Nat) (v : α)
    (h : List.Pairwise (fun x y : Nat × α => x.1 < y.1) l) :
    List.Pairwise (fun x y : Nat × α => x.1 < y.1) (insertA l k v) := by
  induction l with
  | nil => simp [insertA]
  | cons p rest ih =>
    obtain ⟨pk, pv⟩ := p
    rw [List.pairwise_cons] at h
    obtain ⟨hall, hrest⟩ := h
    unfold insertA
    split
    · rename_i hk
      refine List.Pairwise.cons ?_ (List.Pairwise.cons hall hrest)
      intro y hy
      rcases List.mem_cons.mp hy with rfl | hy2
      · exact hk
      · exact Nat.lt_trans hk (hall y hy2)
    · split
      · exact List.Pairwise.cons hall hrest
      · rename_i h1 h2
        refine List.Pairwise.cons ?_ (ih hrest)
        intro y hy
        rcases mem_insertA rest k v y hy with rfl | hy2
        · show pk < k
          omega
        · exact hall y hy2

theorem sublist_eraseA {α : Type} (l : List (Nat × α)) (k : Nat) :
    List.Sublist (eraseA l k) l := by
  induction l with
  | nil => exact List.Sublist.refl _
  | cons p rest ih =>
    obtain ⟨pk, pv⟩ := p
    unfold eraseA
    split
    · exact List.sublist_cons_self _ _
    · exact List.Sublist.cons₂ _ ih

theorem pairwise_eraseA {α : Type} (l : List (Nat × α)) (k : Nat)
    (h : List.Pairwise (fun x y : Nat × α => x.1 < y.1) l) :
    List.Pairwise (fun x y : Nat × α => x.1 < y.1) (eraseA l k) :=
  h.sublist (sublist_eraseA l k)

theorem lookupA_insertA_val {α : Type} (l : List (Nat × α)) (k : Nat) (v : α)
    (k' : Nat) (w : α) (h : lookupA (insertA l k v) k' = some w) :
    w = v ∨ lookupA l k' = some w := by
  by_cases hk : k' = k
  · subst hk
    revert h
    induction l with
    | nil =>
      intro h
      simp [insertA, lookupA] at h
      exact Or.inl h.symm
    | cons p rest ih =>
      intro h
      obtain ⟨pk, pv⟩ := p
      simp only [insertA] at h
      split at h
      · simp [lookupA] at h
        exact Or.inl h.symm
      · split at h
        · exact Or.inr h
        · simp only [lookupA] at h ⊢
          split at h
          · simp_all
          · rename_i h1 h2 h3
            rw [if_neg h3]
            exact ih h
  · rw [lookupA_insertA_ne l k v k' hk] at h
    exact Or.inr h

theorem lookupA_mem_keys {α : Type} (l : List (Nat × α)) (k : Nat)
    (h : lookupA l k ≠ none) : k ∈ l.map Prod.fst := by
  induction l with
  | nil => simp [lookupA] at h
  | cons p rest ih =>
    obtain ⟨pk, pv⟩ := p
    unfold lookupA at h
    split at h
    · simp_all
    · simpa using Or.inr (ih h)

/-! ## Lexicographic order and common prefix lemmas -/

theorem lexLeB_nil_elim (a : List Nat) (h : lexLeB a [] = true) : a = [] := by
  cases a with
  | nil => rfl
  | cons a0 as => simp [lexLeB, lexLtB] at h

theorem lexLeB_head (a0 b0 : Nat) (as bs : List Nat)
    (h : lexLeB (a0 :: as) (b0 :: bs) = true) : a0 ≤ b0 := by
  simp only [lexLeB, Bool.not_eq_true'] at h
  simp only [lexLtB] at h
  by_contra hc
  have hlt : b0 < a0 := by omega
  rw [if_pos hlt] at h
  simp at h

theorem lexLeB_nonempty (p0 : Nat) (ps b : List Nat)
    (h : lexLeB (p0 :: ps) b = true) : b ≠ [] := by
  intro hb
  subst hb
  exact absurd (lexLeB_nil_elim _ h) (by simp)

theorem lexLeB_trans (a b c : List Nat) (h1 : lexLeB a b = true) (h2 : lexLeB b c = true) :
    lexLeB a c = true := by
  simp only [lexLeB, Bool.not_eq_true'] at h1 h2 ⊢
  exact lexLtB_neg_trans a b c h1 h2

theorem pairLe_iff_lexLeB (p q : Pair) : pairLe p q ↔ lexLeB p.in_ q.in_ = true := by
  unfold pairLe lexLeB
  cases lexLtB q.in_ p.in_ <;> simp

theorem commonPrefixLen_le_left : ∀ a b : List Nat, commonPrefixLen a b ≤ a.length := by
  intro a
  induction a with
  | nil => intro b; cases b <;> simp [commonPrefixLen]
  | cons a0 as ih =>
    intro b
    cases b with
    | nil => simp [commonPrefixLen]
    | cons b0 bs =>
      unfold commonPrefixLen
      split
      · have := ih bs
        simp
        omega
      · simp

theorem commonPrefixLen_le_right : ∀ a b : List Nat, commonPrefixLen a b ≤ b.length := by
  intro a
  induction a with
  | nil => intro b; cases b <;> simp [commonPrefixLen]
  | cons a0 as ih =>
    intro b
    cases b with
    | nil => simp [commonPrefixLen]
    | cons b0 bs =>
      unfold commonPrefixLen
      split
      · have := ih bs
        simp
        omega
      · simp

theorem commonPrefixLen_self : ∀ a : List Nat, commonPrefixLen a a = a.length := by
  intro a
  induction a with
  | nil => rfl
  | cons a0 as ih => simp [commonPrefixLen, ih]

theorem commonPrefixLen_head_eq (a0 : Nat) (as bs : List Nat) :
    1 ≤ commonPrefixLen (a0 :: as) (a0 :: bs) := by
  simp [commonPrefixLen]

theorem commonPrefixLen_head_ne (a0 b0 : Nat) (as bs : List Nat) (hne : a0 ≠ b0) :
    commonPrefixLen (a0 :: as) (b0 :: bs) = 0 := by
  simp [commonPrefixLen, hne]

theorem commonPrefixLen_pos_heads (a b : List Nat) (h : 1 ≤ commonPrefixLen a b) :
    ∃ x as bs, a = x :: as ∧ b = x :: bs := by
  cases a with
  | nil => simp [commonPrefixLen] at h
  | cons a0 as =>
    cases b with
    | nil => simp [commonPrefixLen] at h
    | cons b0 bs =>
      unfold commonPrefixLen at h
      split at h
      · rename_i he
        exact ⟨a0, as, bs, rfl, by rw [he]⟩
      · omega

/-! ## Heap operation frame and unfolding lemmas -/

theorem size_setOutput (h : Heap) (r ch : Nat) (v : Int) :
    (setOutput h r ch v).size = h.size := size_setD _ _ _

theorem size_removeOutput (h : Heap) (r ch : Nat) :
    (removeOutput h r ch).size = h.size := size_setD _ _ _

theorem size_setTransition (h : Heap) (a ch next : Nat) :
    (setTransition h a ch next).size = h.size := size_setD _ _ _

theorem size_renew (h : Heap) (r : Nat) : (renew h r).size = h.size := size_setD _ _ _

theorem size_addTail (h : Heap) (r : Nat) (t : Int) :
    (addTail h r t).size = h.size := size_setD _ _ _

theorem size_setFinal (h : Heap) (r : Nat) : (setFinal h r).size = h.size := size_setD _ _ _

theorem heapGet_setOutput_ne (h : Heap) (r ch : Nat) (v : Int) (r' : Nat) (hne : r' ≠ r) :
    heapGet (setOutput h r ch v) r' = heapGet h r' := heapGet_setD_ne _ _ _ _ hne

theorem heapGet_removeOutput_ne (h : Heap) (r ch : Nat) (r' : Nat) (hne : r' ≠ r) :
    heapGet (removeOutput h r ch) r' = heapGet h r' := heapGet_setD_ne _ _ _ _ hne

theorem heapGet_setTransition_ne (h : Heap) (a ch next : Nat) (r' : Nat) (hne : r' ≠ a) :
    heapGet (setTransition h a ch next) r' = heapGet h r' := heapGet_setD_ne _ _ _ _ hne

theorem heapGet_renew_ne (h : Heap) (r : Nat) (r' : Nat) (hne : r' ≠ r) :
    heapGet (renew h r) r' = heapGet h r' := heapGet_setD_ne _ _ _ _ hne

theorem heapGet_addTail_ne (h : Heap) (r : Nat) (t : Int) (r' : Nat) (hne : r' ≠ r) :
    heapGet (addTail h r t) r' = heapGet h r' := heapGet_setD_ne _ _ _ _ hne

theorem heapGet_setFinal_ne (h : Heap) (r : Nat) (r' : Nat) (hne : r' ≠ r) :
    heapGet (setFinal h r) r' = heapGet h r' := heapGet_setD_ne _ _ _ _ hne

theorem heapGet_setOutput_self (h : Heap) (r ch : Nat) (v : Int) (hr : r < h.size) :
    heapGet (setOutput h r ch v) r = stSetOutput (heapGet h r) ch v :=
  heapGet_setD_self _ _ _ hr

theorem heapGet_removeOutput_self (h : Heap) (r ch : Nat) (hr : r < h.size) :
    heapGet (removeOutput h r ch) r = stRemoveOutput (heapGet h r) ch :=
  heapGet_setD_self _ _ _ hr

theorem heapGet_setTransition_self (h : Heap) (a ch next : Nat) (ha : a < h.size) :
    heapGet (setTransition h a ch next) a
      = stSetTransition (heapGet h a) ch next (heapGet h next).id :=
  heapGet_setD_self _ _ _ ha

theorem heapGet_renew_self (h : Heap) (r : Nat) (hr : r < h.size) :
    heapGet (renew h r) r = stRenew (heapGet h r) := heapGet_setD_self _ _ _ hr

theorem heapGet_addTail_self (h : Heap) (r : Nat) (t : Int) (hr : r < h.size) :
    heapGet (addTail h r t) r
      = { heapGet h r with tail := tailInsert (heapGet h r).tail t } :=
  heapGet_setD_self _ _ _ hr

theorem heapGet_setFinal_self (h : Heap) (r : Nat) (hr : r < h.size) :
    heapGet (setFinal h r) r = { heapGet h r with isFinal := true } :=
  heapGet_setD_self _ _ _ hr

/-! ## Cell-0 monotonicity -/

theorem setD_oob (h : Heap) (r : Nat) (s : StateData) (hr : h.size ≤ r) : h.setD r s = h := by
  unfold Array.setD
  rw [dif_neg (by omega)]

theorem cell0Mono_refl (h : Heap) : cell0Mono h h := ⟨rfl, rfl, rfl, fun _ hk => hk⟩

theorem cell0Mono_trans {h1 h2 h3 : Heap} (a : cell0Mono h1 h2) (b : cell0Mono h2 h3) :
    cell0Mono h1 h3 :=
  ⟨by rw [b.1, a.1], by rw [b.2.1, a.2.1], by rw [b.2.2.1, a.2.2.1],
    fun k hk => b.2.2.2 k (a.2.2.2 k hk)⟩

theorem cell0Mono_of_eq {h h' : Heap} (he : heapGet h' 0 = heapGet h 0) :
    cell0Mono h h' := ⟨by rw [he], by rw [he], by rw [he], fun k hk => by rw [he]; exact hk⟩

theorem cell0Mono_setTransition0 (h : Heap) (ch next : Nat) :
    cell0Mono h (setTransition h 0 ch next) := by
  by_cases h0 : 0 < h.size
  · unfold cell0Mono
    rw [heapGet_setTransition_self h 0 ch next h0]
    refine ⟨stSetTransition_output _ _ _ _, stSetTransition_isFinal _ _ _ _,
      stSetTransition_tail _ _ _ _, fun k hk => ?_⟩
    rw [stSetTransition_trans]
    exact lookupA_insertA_preserve _ _ _ _ hk
  · unfold setTransition
    exact cell0Mono_of_eq (by rw [setD_oob h 0 _ (by omega)])

theorem cell0Mono_trans_lookup {h h' : Heap} (m : cell0Mono h h') (B : Nat)
    (hB : lookupA (heapGet h 0).trans B ≠ none) :
    lookupA (heapGet h' 0).trans B ≠ none := m.2.2.2 B hB

/-! ## Freeze step characterizations -/

theorem freezeStepMain_cases (b : BuildSt) (i ch : Nat) (b' : BuildSt)
    (hok : freezeStepMain b i ch = .ok b') :
    (∃ s, b'.states = b.states ∧
        b'.heap = setTransition (renew b.heap i) (i - 1) ch s) ∨
    (b'.states = b.states ++ [b.heap.size] ∧
        b'.heap = setTransition
          (renew ((b.heap.push (heapGet b.heap i)).setD b.heap.size
              { heapGet b.heap i with id := (b.states.length : Int) })
            i)
          (i - 1) ch b.heap.size) := by
  unfold freezeStepMain at hok
  simp only [bind, Except.bind, pure, Except.pure] at hok
  split at hok
  · -- reuse branch
    rename_i s heq
    left
    cases hok
    exact ⟨s, rfl, rfl⟩
  · -- clone branch
    split at hok
    · cases hok
    · rename_i d2 heq2
      right
      cases hok
      unfold addStateB
      refine ⟨rfl, ?_⟩
      simp only []
      rw [heapGet_push_self]

theorem freezeStepFlush_cases (b : BuildSt) (i ch : Nat) (b' : BuildSt)
    (hok : freezeStepFlush b i ch = .ok b') :
    (∃ s, b'.states = b.states ∧ b'.heap = setTransition b.heap (i - 1) ch s) ∨
    (b'.states = b.states ++ [b.heap.size] ∧
        b'.heap = setTransition
          ((renew (b.heap.push (heapGet b.heap i)) i).setD b.heap.size
              { heapGet (renew (b.heap.push (heapGet b.heap i)) i) b.heap.size with
                 id := (b.states.length : Int) })
          (i - 1) ch b.heap.size) := by
  unfold freezeStepFlush at hok
  simp only [bind, Except.bind, pure, Except.pure] at hok
  split at hok
  · rename_i s heq
    left
    cases hok
    exact ⟨s, rfl, rfl⟩
  · split at hok
    · cases hok
    · rename_i d2 heq2
      right
      cases hok
      unfold addStateB
      exact ⟨rfl, rfl⟩

/-! ## Per-phase lemmas about the builder's heap mutations -/

theorem lookupA_some_mem {α : Type} (l : List (Nat × α)) (k : Nat) (v : α)
    (h : lookupA l k = some v) : (k, v) ∈ l := by
  induction l with
  | nil => simp [lookupA] at h
  | cons p rest ih =>
    obtain ⟨pk, pv⟩ := p
    unfold lookupA at h
    split at h
    · rename_i he
      subst he
      injection h with h
      subst h
      simp
    · simp [ih h]

theorem setTransition_preserves (h : Heap) (a ch next : Nat) (r : Nat) :
    (heapGet (setTransition h a ch next) r).output = (heapGet h r).output ∧
    (heapGet (setTransition h a ch next) r).tail = (heapGet h r).tail ∧
    (heapGet (setTransition h a ch next) r).isFinal = (heapGet h r).isFinal := by
  by_cases hr : r = a
  · subst hr
    by_cases hs : r < h.size
    · rw [heapGet_setTransition_self h r ch next hs]
      exact ⟨rfl, rfl, rfl⟩
    · unfold setTransition
      rw [setD_oob _ _ _ (by omega)]
      exact ⟨rfl, rfl, rfl⟩
  · rw [heapGet_setTransition_ne h a ch next r hr]
    exact ⟨rfl, rfl, rfl⟩

theorem extendLoop_size (inStr : List Nat) :
    ∀ k i h, (extendLoop inStr i k h).size = h.size := by
  intro k
  induction k with
  | zero => intro i h; rfl
  | succ n ih =>
    intro i h
    unfold extendLoop
    rw [ih (i + 1) _, size_setTransition]

theorem extendLoop_preserves (inStr : List Nat) :
    ∀ k i h r, ((heapGet (extendLoop inStr i k h) r).output = (heapGet h r).output ∧
      (heapGet (extendLoop inStr i k h) r).tail = (heapGet h r).tail ∧
      (heapGet (extendLoop inStr i k h) r).isFinal = (heapGet h r).isFinal) := by
  intro k
  induction k with
  | zero => intro i h r; exact ⟨rfl, rfl, rfl⟩
  | succ n ih =>
    intro i h r
    unfold extendLoop
    obtain ⟨h1, h2, h3⟩ := ih (i + 1) (setTransition h (i - 1) (inStr.getD (i - 1) 0) i) r
    obtain ⟨g1, g2, g3⟩ := setTransition_preserves h (i - 1) (inStr.getD (i - 1) 0) i r
    exact ⟨h1.trans g1, h2.trans g2, h3.trans g3⟩

theorem extendLoop_cell0Mono (inStr : List Nat) :
    ∀ k i h, cell0Mono h (extendLoop inStr i k h) := by
  intro k
  induction k with
  | zero => intro i h; exact cell0Mono_refl h
  | succ n ih =>
    intro i h
    unfold extendLoop
    refine cell0Mono_trans ?_ (ih (i + 1) _)
    by_cases h0 : i - 1 = 0
    · rw [h0]
      exact cell0Mono_setTransition0 h _ _
    · exact cell0Mono_of_eq (heapGet_setTransition_ne h _ _ _ 0 (Ne.symm (by omega)))

theorem propagate_size (r : Nat) (v : Int) :
    ∀ l h, (propagate r v l h).size = h.size := by
  intro l
  induction l with
  | nil => intro h; rfl
  | cons p rest ih =>
    intro h
    obtain ⟨pk, pv⟩ := p
    unfold propagate
    rw [ih _, size_setOutput]

theorem propagate_frame (r : Nat) (v : Int) :
    ∀ l h r', r' ≠ r → heapGet (propagate r v l h) r' = heapGet h r' := by
  intro l
  induction l with
  | nil => intro h r' _; rfl
  | cons p rest ih =>
    intro h r' hne
    obtain ⟨pk, pv⟩ := p
    unfold propagate
    rw [ih _ r' hne, heapGet_setOutput_ne _ _ _ _ _ hne]

/-- The redistribution loop from `j ≥ 2` never touches state 0, the
registered list, or the heap size. -/
theorem redisLoop_frame2 (inStr : List Nat) :
    ∀ k j (out : Int) (b b2 : BuildSt) (out2 : Int), 2 ≤ j →
      redisLoop inStr j k out b = .ok (b2, out2) →
      heapGet b2.heap 0 = heapGet b.heap 0 ∧ b2.states = b.states ∧
        b2.heap.size = b.heap.size := by
  intro k
  induction k with
  | zero =>
    intro j out b b2 out2 _ hok
    cases hok
    exact ⟨rfl, rfl, rfl⟩
  | succ n ih =>
    intro j out b b2 out2 hj hok
    unfold redisLoop at hok
    dsimp only at hok
    rcases hl : lookupA (heapGet b.heap (j - 1)).output (inStr.getD (j - 1) 0) with _ | v <;>
      rw [hl] at hok
    · cases hok
    · simp only [] at hok
      split at hok
      · cases hok
        exact ⟨rfl, rfl, rfl⟩
      · have hrec := ih (j + 1) out _ b2 out2 (by omega) hok
        refine ⟨?_, hrec.2.1, ?_⟩
        · rw [hrec.1]
          simp only []
          split
          · rw [heapGet_addTail_ne _ _ _ _ (by omega),
              propagate_frame _ _ _ _ _ (by omega),
              heapGet_removeOutput_ne _ _ _ _ (by omega)]
          · rw [propagate_frame _ _ _ _ _ (by omega),
              heapGet_removeOutput_ne _ _ _ _ (by omega)]
        · rw [hrec.2.2]
          simp only []
          split
          · rw [size_addTail, propagate_size, size_removeOutput]
          · rw [propagate_size, size_removeOutput]

/-- The first iteration of the redistribution loop (`j = 1`) either leaves
the builder state untouched (equality break, or no iterations) or erases the
output entry of `buf[0]` for the first input byte, which then stays absent. -/
theorem redisLoop_start_cases (inStr : List Nat) (k : Nat) (out : Int) (b b2 : BuildSt)
    (out2 : Int) (hsz : 0 < b.heap.size) (hwf0 : outWF (heapGet b.heap 0))
    (hok : redisLoop inStr 1 k out b = .ok (b2, out2)) :
    (b2 = b ∧ ((k = 0 ∧ out2 = out) ∨
        (out2 = 0 ∧ lookupA (heapGet b.heap 0).output (inStr.getD 0 0) = some out))) ∨
    (1 ≤ k ∧ lookupA (heapGet b2.heap 0).output (inStr.getD 0 0) = none ∧
      b2.states = b.states ∧ b2.heap.size = b.heap.size) := by
  cases k with
  | zero => cases hok; exact Or.inl ⟨rfl, Or.inl ⟨rfl, rfl⟩⟩
  | succ n =>
    unfold redisLoop at hok
    dsimp only at hok
    simp only [Nat.sub_self] at hok
    rcases hl : lookupA (heapGet b.heap 0).output (inStr.getD 0 0) with _ | v <;>
      rw [hl] at hok
    · cases hok
    · simp only [] at hok
      split at hok
      · rename_i hv
        cases hok
        exact Or.inl ⟨rfl, Or.inr ⟨rfl, by rw [hv]⟩⟩
      · right
        refine ⟨by omega, ?_⟩
        obtain ⟨hc0, hst, hsize⟩ := redisLoop_frame2 inStr n 2 out _ b2 out2 (by omega) hok
        refine ⟨?_, hst, ?_⟩
        · rw [hc0]
          simp only []
          have hrm : heapGet (removeOutput b.heap 0 (inStr.getD 0 0)) 0
              = stRemoveOutput (heapGet b.heap 0) (inStr.getD 0 0) :=
            heapGet_removeOutput_self _ _ _ hsz
          split
          · rw [heapGet_addTail_ne _ _ _ _ (by omega),
              propagate_frame _ _ _ _ _ (by omega), hrm, stRemoveOutput_output]
            exact lookupA_eraseA_self _ _ hwf0
          · rw [propagate_frame _ _ _ _ _ (by omega), hrm, stRemoveOutput_output]
            exact lookupA_eraseA_self _ _ hwf0
        · rw [hsize]
          simp only []
          split
          · rw [size_addTail, propagate_size, size_removeOutput]
          · rw [propagate_size, size_removeOutput]

/-- The redistribution loop preserves a hole at byte `B` on state 0 when the
current key does not start with `B`: the only state-0 mutation it can make is
erasing the output entry of the first input byte. -/
theorem redisLoop_holePreserve (inStr : List Nat) (k : Nat) (out : Int) (b b2 : BuildSt)
    (out2 : Int) (B : Nat) (hne : inStr.getD 0 0 ≠ B)
    (hok : redisLoop inStr 1 k out b = .ok (b2, out2))
    (hnone : lookupA (heapGet b.heap 0).output B = none) :
    lookupA (heapGet b2.heap 0).output B = none ∧
    (lookupA (heapGet b.heap 0).trans B ≠ none →
      lookupA (heapGet b2.heap 0).trans B ≠ none) ∧
    b2.heap.size = b.heap.size := by
  cases k with
  | zero => cases hok; exact ⟨hnone, fun h => h, rfl⟩
  | succ n =>
    unfold redisLoop at hok
    dsimp only at hok
    simp only [Nat.sub_self] at hok
    rcases hl : lookupA (heapGet b.heap 0).output (inStr.getD 0 0) with _ | v <;>
      rw [hl] at hok
    · cases hok
    · simp only [] at hok
      split at hok
      · cases hok
        exact ⟨hnone, fun h => h, rfl⟩
      · obtain ⟨hc0, _, hsize⟩ := redisLoop_frame2 inStr n 2 out _ b2 out2 (by omega) hok
        by_cases hbsz : 0 < b.heap.size
        · have hrm : heapGet (removeOutput b.heap 0 (inStr.getD 0 0)) 0
              = stRemoveOutput (heapGet b.heap 0) (inStr.getD 0 0) :=
            heapGet_removeOutput_self _ _ _ hbsz
          have hget : heapGet b2.heap 0 = stRemoveOutput (heapGet b.heap 0) (inStr.getD 0 0) := by
            rw [hc0]
            simp only []
            split
            · rw [heapGet_addTail_ne _ _ _ _ (by omega),
                propagate_frame _ _ _ _ _ (by omega), hrm]
            · rw [propagate_frame _ _ _ _ _ (by omega), hrm]
          refine ⟨?_, fun htr => ?_, ?_⟩
          · rw [hget, stRemoveOutput_output, lookupA_eraseA_ne _ _ _ (Ne.symm hne)]
            exact hnone
          · rw [hget, stRemoveOutput_trans]
            exact htr
          · rw [hsize]
            simp only []
            split
            · rw [size_addTail, propagate_size, size_removeOutput]
            · rw [propagate_size, size_removeOutput]
        · -- state 0 out of bounds: every mutation of it is a no-op
          have hrm : removeOutput b.heap 0 (inStr.getD 0 0) = b.heap := by
            unfold removeOutput
            exact setD_oob _ _ _ (by omega)
          have hget : heapGet b2.heap 0 = heapGet b.heap 0 := by
            rw [hc0]
            simp only []
            split
            · rw [heapGet_addTail_ne _ _ _ _ (by omega),
                propagate_frame _ _ _ _ _ (by omega), hrm]
            · rw [propagate_frame _ _ _ _ _ (by omega), hrm]
          refine ⟨by rw [hget]; exact hnone, fun htr => by rw [hget]; exact htr, ?_⟩
          · rw [hsize]
            simp only []
            split
            · rw [size_addTail, propagate_size, size_removeOutput]
            · rw [propagate_size, size_removeOutput]

/-- A nonempty redistribution loop whose first lookup misses throws. -/
theorem redisLoop_start_err (inStr : List Nat) (n : Nat) (out : Int) (b : BuildSt)
    (hnone : lookupA (heapGet b.heap 0).output (inStr.getD 0 0) = none) :
    redisLoop inStr 1 (n + 1) out b
      = .error (.outputAt 0 (inStr.getD 0 0)) := by
  unfold redisLoop
  dsimp only
  simp only [Nat.sub_self]
  rw [hnone]

theorem cell0Mono_setTransition_all (h : Heap) (a ch next : Nat) :
    cell0Mono h (setTransition h a ch next) := by
  by_cases ha : a = 0
  · subst ha
    exact cell0Mono_setTransition0 h ch next
  · exact cell0Mono_of_eq (heapGet_setTransition_ne h a ch next 0 (Ne.symm ha))

theorem freezeStepMain_size_mono (b : BuildSt) (i ch : Nat) (b' : BuildSt)
    (hok : freezeStepMain b i ch = .ok b') : b.heap.size ≤ b'.heap.size := by
  rcases freezeStepMain_cases b i ch b' hok with ⟨s, _, hh⟩ | ⟨_, hh⟩
  · rw [hh, size_setTransition, size_renew]
  · rw [hh, size_setTransition, size_renew, size_setD, Array.size_push]
    omega

theorem freezeStepMain_cell0Mono (b : BuildSt) (i ch : Nat) (b' : BuildSt)
    (hi : 1 ≤ i) (hsz : 0 < b.heap.size)
    (hok : freezeStepMain b i ch = .ok b') : cell0Mono b.heap b'.heap := by
  rcases freezeStepMain_cases b i ch b' hok with ⟨s, _, hh⟩ | ⟨_, hh⟩
  · rw [hh]
    exact cell0Mono_trans
      (cell0Mono_of_eq (heapGet_renew_ne _ _ _ (by omega)))
      (cell0Mono_setTransition_all _ _ _ _)
  · rw [hh]
    refine cell0Mono_trans (cell0Mono_of_eq ?_)
      (cell0Mono_trans (cell0Mono_of_eq (heapGet_renew_ne _ _ _ (by omega)))
        (cell0Mono_setTransition_all _ _ _ _))
    rw [heapGet_setD_ne _ _ _ _ (by omega), heapGet_push_lt _ _ _ (by omega)]

theorem freezeStepMain_wired (b : BuildSt) (ch : Nat) (b' : BuildSt) (hsz : 0 < b.heap.size)
    (hok : freezeStepMain b 1 ch = .ok b') :
    lookupA (heapGet b'.heap 0).trans ch ≠ none := by
  rcases freezeStepMain_cases b 1 ch b' hok with ⟨s, _, hh⟩ | ⟨_, hh⟩
  · rw [hh]
    have h0 : (1 : Nat) - 1 = 0 := rfl
    rw [h0, heapGet_setTransition_self _ _ _ _ (by rw [size_renew]; omega),
      stSetTransition_trans]
    exact lookupA_insertA_not_none _ _ _
  · rw [hh]
    have h0 : (1 : Nat) - 1 = 0 := rfl
    rw [h0, heapGet_setTransition_self _ _ _ _
        (by rw [size_renew, size_setD, Array.size_push]; omega),
      stSetTransition_trans]
    exact lookupA_insertA_not_none _ _ _

theorem freezeStepFlush_size_mono (b : BuildSt) (i ch : Nat) (b' : BuildSt)
    (hok : freezeStepFlush b i ch = .ok b') : b.heap.size ≤ b'.heap.size := by
  rcases freezeStepFlush_cases b i ch b' hok with ⟨s, _, hh⟩ | ⟨_, hh⟩
  · rw [hh, size_setTransition]
  · rw [hh, size_setTransition, size_setD, size_renew, Array.size_push]
    omega

theorem freezeStepFlush_cell0Mono (b : BuildSt) (i ch : Nat) (b' : BuildSt)
    (hi : 1 ≤ i) (hsz : 0 < b.heap.size)
    (hok : freezeStepFlush b i ch = .ok b') : cell0Mono b.heap b'.heap := by
  rcases freezeStepFlush_cases b i ch b' hok with ⟨s, _, hh⟩ | ⟨_, hh⟩
  · rw [hh]
    exact cell0Mono_setTransition_all _ _ _ _
  · rw [hh]
    refine cell0Mono_trans (cell0Mono_of_eq ?_) (cell0Mono_setTransition_all _ _ _ _)
    rw [heapGet_setD_ne _ _ _ _ (by omega), heapGet_renew_ne _ _ _ (by omega),
      heapGet_push_lt _ _ _ (by omega)]

theorem freezeStepFlush_wired (b : BuildSt) (ch : Nat) (b' : BuildSt) (hsz : 0 < b.heap.size)
    (hok : freezeStepFlush b 1 ch = .ok b') :
    lookupA (heapGet b'.heap 0).trans ch ≠ none := by
  rcases freezeStepFlush_cases b 1 ch b' hok with ⟨s, _, hh⟩ | ⟨_, hh⟩
  · rw [hh]
    have h0 : (1 : Nat) - 1 = 0 := rfl
    rw [h0, heapGet_setTransition_self _ _ _ _ (by omega), stSetTransition_trans]
    exact lookupA_insertA_not_none _ _ _
  · rw [hh]
    have h0 : (1 : Nat) - 1 = 0 := rfl
    rw [h0, heapGet_setTransition_self _ _ _ _
        (by rw [size_setD, size_renew, Array.size_push]; omega),
      stSetTransition_trans]
    exact lookupA_insertA_not_none _ _ _

theorem heapGet_setD_cases (h : Heap) (r : Nat) (s : StateData) (r' : Nat) :
    heapGet (h.setD r s) r' = heapGet h r' ∨
      (r' = r ∧ heapGet (h.setD r s) r' = s) := by
  by_cases he : r' = r
  · subst he
    by_cases hr : r' < h.size
    · exact Or.inr ⟨rfl, heapGet_setD_self _ _ _ hr⟩
    · rw [setD_oob _ _ _ (by omega)]
      exact Or.inl rfl
  · exact Or.inl (heapGet_setD_ne _ _ _ _ he)

theorem heapGet_setTransition_cases (h : Heap) (a ch n r : Nat) :
    heapGet (setTransition h a ch n) r = heapGet h r ∨
      (r = a ∧ heapGet (setTransition h a ch n) r
        = stSetTransition (heapGet h a) ch n (heapGet h n).id) :=
  heapGet_setD_cases h a _ r

theorem heapGet_setOutput_cases (h : Heap) (a ch : Nat) (v : Int) (r : Nat) :
    heapGet (setOutput h a ch v) r = heapGet h r ∨
      (r = a ∧ heapGet (setOutput h a ch v) r = stSetOutput (heapGet h a) ch v) :=
  heapGet_setD_cases h a _ r

theorem heapGet_removeOutput_cases (h : Heap) (a ch : Nat) (r : Nat) :
    heapGet (removeOutput h a ch) r = heapGet h r ∨
      (r = a ∧ heapGet (removeOutput h a ch) r = stRemoveOutput (heapGet h a) ch) :=
  heapGet_setD_cases h a _ r

theorem heapGet_renew_cases (h : Heap) (a r : Nat) :
    heapGet (renew h a) r = heapGet h r ∨
      (r = a ∧ heapGet (renew h a) r = stRenew (heapGet h a)) :=
  heapGet_setD_cases h a _ r

theorem heapGet_addTail_cases (h : Heap) (a : Nat) (t : Int) (r : Nat) :
    heapGet (addTail h a t) r = heapGet h r ∨
      (r = a ∧ heapGet (addTail h a t) r
        = { heapGet h a with tail := tailInsert (heapGet h a).tail t }) :=
  heapGet_setD_cases h a _ r

theorem heapGet_setFinal_cases (h : Heap) (a r : Nat) :
    heapGet (setFinal h a) r = heapGet h r ∨
      (r = a ∧ heapGet (setFinal h a) r = { heapGet h a with isFinal := true }) :=
  heapGet_setD_cases h a _ r

/-- The clean invariant reads only the heap and the registered list, so it
transfers between builder states agreeing on those. -/
theorem cleanInv_congr (maxLen : Nat) (b b' : BuildSt) (hh : b'.heap = b.heap)
    (hs : b'.states = b.states) (hc : CleanInv maxLen b) : CleanInv maxLen b' := by
  refine ⟨?_, ?_, ?_, ?_, ?_, ?_, ?_, ?_⟩
  · rw [hh]; exact hc.hsize
  · rw [hs]; exact hc.hrefs
  · rw [hh, hs]; exact hc.hlt
  · rw [hh]; exact hc.hwf
  · rw [hh]; exact hc.hnz
  · rw [hh]; exact hc.hnf0
  · rw [hh]; exact hc.htf
  · rw [hh, hs]; exact hc.hclean

theorem cleanInv_setTransition (maxLen : Nat) (b : BuildSt) (a ch n : Nat)
    (hc : CleanInv maxLen b) :
    CleanInv maxLen { b with heap := setTransition b.heap a ch n } := by
  refine ⟨?_, hc.hrefs, ?_, ?_, ?_, ?_, ?_, ?_⟩
  · show maxLen < (setTransition b.heap a ch n).size
    rw [size_setTransition]; exact hc.hsize
  · intro r hr
    show r < (setTransition b.heap a ch n).size
    rw [size_setTransition]; exact hc.hlt r hr
  · intro r
    rcases heapGet_setTransition_cases b.heap a ch n r with he | ⟨_, he⟩ <;> rw [he]
    · exact hc.hwf r
    · show List.Pairwise _ (stSetTransition (heapGet b.heap a) ch n (heapGet b.heap n).id).output
      rw [stSetTransition_output]
      exact hc.hwf a
  · intro r q hq
    rcases heapGet_setTransition_cases b.heap a ch n r with he | ⟨_, he⟩ <;> rw [he] at hq
    · exact hc.hnz r q hq
    · rw [stSetTransition_output] at hq
      exact hc.hnz a q hq
  · rcases heapGet_setTransition_cases b.heap a ch n 0 with he | ⟨h0, he⟩ <;> rw [he]
    · exact hc.hnf0
    · rw [stSetTransition_isFinal, ← h0]
      exact hc.hnf0
  · intro i hi1 hi2
    rcases heapGet_setTransition_cases b.heap a ch n i with he | ⟨hia, he⟩ <;> rw [he]
    · exact hc.htf i hi1 hi2
    · rw [stSetTransition_tail, ← hia]
      exact hc.htf i hi1 hi2
  · intro r hr
    rcases heapGet_setTransition_cases b.heap a ch n r with he | ⟨hra, he⟩ <;> rw [he]
    · exact hc.hclean r hr
    · rw [stSetTransition_isFinal, stSetTransition_tail, ← hra]
      exact hc.hclean r hr

theorem cleanInv_setOutput (maxLen : Nat) (b : BuildSt) (a ch : Nat) (v : Int)
    (hc : CleanInv maxLen b) :
    CleanInv maxLen { b with heap := setOutput b.heap a ch v } := by
  refine ⟨?_, hc.hrefs, ?_, ?_, ?_, ?_, ?_, ?_⟩
  · show maxLen < (setOutput b.heap a ch v).size
    rw [size_setOutput]; exact hc.hsize
  · intro r hr
    show r < (setOutput b.heap a ch v).size
    rw [size_setOutput]; exact hc.hlt r hr
  · intro r
    rcases heapGet_setOutput_cases b.heap a ch v r with he | ⟨_, he⟩ <;> rw [he]
    · exact hc.hwf r
    · show List.Pairwise _ (stSetOutput (heapGet b.heap a) ch v).output
      rw [stSetOutput_output]
      split
      · exact hc.hwf a
      · exact pairwise_insertA _ _ _ (hc.hwf a)
  · intro r q hq
    rcases heapGet_setOutput_cases b.heap a ch v r with he | ⟨_, he⟩ <;> rw [he] at hq
    · exact hc.hnz r q hq
    · rw [stSetOutput_output] at hq
      by_cases hv : v = 0
      · rw [if_pos hv] at hq
        exact hc.hnz a q hq
      · rw [if_neg hv] at hq
        rcases mem_insertA _ _ _ _ hq with rfl | hq2
        · exact hv
        · exact hc.hnz a q hq2
  · rcases heapGet_setOutput_cases b.heap a ch v 0 with he | ⟨h0, he⟩ <;> rw [he]
    · exact hc.hnf0
    · rw [stSetOutput_isFinal, ← h0]
      exact hc.hnf0
  · intro i hi1 hi2
    rcases heapGet_setOutput_cases b.heap a ch v i with he | ⟨hia, he⟩ <;> rw [he]
    · exact hc.htf i hi1 hi2
    · rw [stSetOutput_tail, ← hia]
      exact hc.htf i hi1 hi2
  · intro r hr
    rcases heapGet_setOutput_cases b.heap a ch v r with he | ⟨hra, he⟩ <;> rw [he]
    · exact hc.hclean r hr
    · rw [stSetOutput_isFinal, stSetOutput_tail, ← hra]
      exact hc.hclean r hr

theorem cleanInv_renew (maxLen : Nat) (b : BuildSt) (a : Nat)
    (hc : CleanInv maxLen b) :
    CleanInv maxLen { b with heap := renew b.heap a } := by
  refine ⟨?_, hc.hrefs, ?_, ?_, ?_, ?_, ?_, ?_⟩
  · show maxLen < (renew b.heap a).size
    rw [size_renew]; exact hc.hsize
  · intro r hr
    show r < (renew b.heap a).size
    rw [size_renew]; exact hc.hlt r hr
  · intro r
    rcases heapGet_renew_cases b.heap a r with he | ⟨_, he⟩ <;> rw [he]
    · exact hc.hwf r
    · show List.Pairwise _ (stRenew (heapGet b.heap a)).output
      rw [(stRenew_fields _).2.1]
      exact List.Pairwise.nil
  · intro r q hq
    rcases heapGet_renew_cases b.heap a r with he | ⟨_, he⟩ <;> rw [he] at hq
    · exact hc.hnz r q hq
    · rw [(stRenew_fields _).2.1] at hq
      cases hq
  · rcases heapGet_renew_cases b.heap a 0 with he | ⟨_, he⟩ <;> rw [he]
    · exact hc.hnf0
    · exact (stRenew_fields _).2.2.2
  · intro i hi1 hi2
    rcases heapGet_renew_cases b.heap a i with he | ⟨_, he⟩ <;> rw [he]
    · exact hc.htf i hi1 hi2
    · exact (stRenew_fields _).2.2.1
  · intro r hr
    rcases heapGet_renew_cases b.heap a r with he | ⟨_, he⟩ <;> rw [he]
    · exact hc.hclean r hr
    · exact Or.inl (stRenew_fields _).2.2.2

theorem cleanInv_setFinal (maxLen : Nat) (b : BuildSt) (a : Nat)
    (ha0 : a ≠ 0) (ham : a ≤ maxLen) (hc : CleanInv maxLen b) :
    CleanInv maxLen { b with heap := setFinal b.heap a } := by
  refine ⟨?_, hc.hrefs, ?_, ?_, ?_, ?_, ?_, ?_⟩
  · show maxLen < (setFinal b.heap a).size
    rw [size_setFinal]; exact hc.hsize
  · intro r hr
    show r < (setFinal b.heap a).size
    rw [size_setFinal]; exact hc.hlt r hr
  · intro r
    rcases heapGet_setFinal_cases b.heap a r with he | ⟨_, he⟩ <;> rw [he]
    · exact hc.hwf r
    · exact hc.hwf a
  · intro r q hq
    rcases heapGet_setFinal_cases b.heap a r with he | ⟨_, he⟩ <;> rw [he] at hq
    · exact hc.hnz r q hq
    · exact hc.hnz a q hq
  · rcases heapGet_setFinal_cases b.heap a 0 with he | ⟨h0, he⟩ <;> rw [he]
    · exact hc.hnf0
    · exact absurd h0.symm ha0
  · intro i hi1 hi2
    rcases heapGet_setFinal_cases b.heap a i with he | ⟨hia, he⟩ <;> rw [he]
    · exact hc.htf i hi1 hi2
    · show ({ heapGet b.heap a with isFinal := true }).tail = []
      show (heapGet b.heap a).tail = []
      rw [← hia]
      exact hc.htf i hi1 hi2
  · intro r hr
    rcases heapGet_setFinal_cases b.heap a r with he | ⟨hra, he⟩ <;> rw [he]
    · exact hc.hclean r hr
    · exact absurd (hc.hrefs r hr) (by omega)

theorem cleanInv_addTail0 (maxLen : Nat) (b : BuildSt) (t : Int)
    (hc : CleanInv maxLen b) :
    CleanInv maxLen { b with heap := addTail b.heap 0 t } := by
  refine ⟨?_, hc.hrefs, ?_, ?_, ?_, ?_, ?_, ?_⟩
  · show maxLen < (addTail b.heap 0 t).size
    rw [size_addTail]; exact hc.hsize
  · intro r hr
    show r < (addTail b.heap 0 t).size
    rw [size_addTail]; exact hc.hlt r hr
  · intro r
    rcases heapGet_addTail_cases b.heap 0 t r with he | ⟨_, he⟩ <;> rw [he]
    · exact hc.hwf r
    · exact hc.hwf 0
  · intro r q hq
    rcases heapGet_addTail_cases b.heap 0 t r with he | ⟨_, he⟩ <;> rw [he] at hq
    · exact hc.hnz r q hq
    · exact hc.hnz 0 q hq
  · rcases heapGet_addTail_cases b.heap 0 t 0 with he | ⟨_, he⟩ <;> rw [he]
    · exact hc.hnf0
    · exact hc.hnf0
  · intro i hi1 hi2
    rcases heapGet_addTail_cases b.heap 0 t i with he | ⟨hia, he⟩ <;> rw [he]
    · exact hc.htf i hi1 hi2
    · omega
  · intro r hr
    rcases heapGet_addTail_cases b.heap 0 t r with he | ⟨hra, he⟩ <;> rw [he]
    · exact hc.hclean r hr
    · have := hc.hrefs r hr
      omega

/-- Registering a clone of buffer cell `i` (entry-loop variant: the clone is
pushed before the renew of cell `i`, so it carries cell `i`'s fields with a
fresh id) preserves the clean invariant. -/
theorem cleanInv_register (maxLen : Nat) (b : BuildSt) (i : Nat)
    (hi1 : 1 ≤ i) (hi2 : i ≤ maxLen) (hc : CleanInv maxLen b) :
    CleanInv maxLen { b with
      heap := (b.heap.push (heapGet b.heap i)).setD b.heap.size
        { heapGet b.heap i with id := (b.states.length : Int) },
      states := b.states ++ [b.heap.size] } := by
  have hH : ∀ r, (r < b.heap.size ∧
        heapGet ((b.heap.push (heapGet b.heap i)).setD b.heap.size
          { heapGet b.heap i with id := (b.states.length : Int) }) r = heapGet b.heap r) ∨
      (r = b.heap.size ∧
        heapGet ((b.heap.push (heapGet b.heap i)).setD b.heap.size
          { heapGet b.heap i with id := (b.states.length : Int) }) r
          = { heapGet b.heap i with id := (b.states.length : Int) }) ∨
      (b.heap.size < r ∧
        heapGet ((b.heap.push (heapGet b.heap i)).setD b.heap.size
          { heapGet b.heap i with id := (b.states.length : Int) }) r = default) := by
    intro r
    by_cases hr : r < b.heap.size
    · exact Or.inl ⟨hr, by
        rw [heapGet_setD_ne _ _ _ _ (by omega), heapGet_push_lt _ _ _ hr]⟩
    · by_cases hr2 : r = b.heap.size
      · subst hr2
        exact Or.inr (Or.inl ⟨rfl, heapGet_setD_self _ _ _
          (by rw [Array.size_push]; omega)⟩)
      · refine Or.inr (Or.inr ⟨by omega, ?_⟩)
        rw [heapGet_setD_ne _ _ _ _ (by omega),
          heapGet_oob _ _ (by rw [Array.size_push]; omega)]
  have hsz : 0 < b.heap.size := by have := hc.hsize; omega
  refine ⟨?_, ?_, ?_, ?_, ?_, ?_, ?_, ?_⟩
  · show maxLen < ((b.heap.push _).setD _ _).size
    rw [size_setD, Array.size_push]
    have := hc.hsize; omega
  · intro r hr
    rcases List.mem_append.mp hr with h | h
    · exact hc.hrefs r h
    · rcases List.mem_singleton.mp h with rfl
      exact hc.hsize
  · intro r hr
    show r < ((b.heap.push _).setD _ _).size
    rw [size_setD, Array.size_push]
    rcases List.mem_append.mp hr with h | h
    · have := hc.hlt r h; omega
    · rcases List.mem_singleton.mp h with rfl
      omega
  · intro r
    rcases hH r with ⟨_, he⟩ | ⟨_, he⟩ | ⟨_, he⟩ <;> rw [he]
    · exact hc.hwf r
    · exact hc.hwf i
    · exact List.Pairwise.nil
  · intro r q hq
    rcases hH r with ⟨_, he⟩ | ⟨_, he⟩ | ⟨_, he⟩ <;> rw [he] at hq
    · exact hc.hnz r q hq
    · exact hc.hnz i q hq
    · cases hq
  · rcases hH 0 with ⟨_, he⟩ | ⟨h0, _⟩ | ⟨h0, _⟩
    · rw [he]; exact hc.hnf0
    · omega
    · omega
  · intro j hj1 hj2
    rcases hH j with ⟨_, he⟩ | ⟨hj, _⟩ | ⟨hj, _⟩
    · rw [he]; exact hc.htf j hj1 hj2
    · have := hc.hsize; omega
    · have := hc.hsize; omega
  · intro r hr
    rcases List.mem_append.mp hr with h | h
    · rcases hH r with ⟨_, he⟩ | ⟨hq, _⟩ | ⟨hq, _⟩
      · rw [he]; exact hc.hclean r h
      · exact absurd (hc.hlt r h) (by omega)
      · exact absurd (hc.hlt r h) (by omega)
    · rcases List.mem_singleton.mp h with rfl
      rcases hH b.heap.size with ⟨hq, _⟩ | ⟨_, he⟩ | ⟨hq, _⟩
      · omega
      · rw [he]
        exact Or.inr (hc.htf i hi1 hi2)
      · omega

/-- Registering a clone of buffer cell `i` (flush variant: `buf[i]` is renewed
before the clone's id is read, but the clone itself was pushed first and still
carries the original fields) preserves the clean invariant. -/
theorem cleanInv_registerFlush (maxLen : Nat) (b : BuildSt) (i : Nat)
    (hi1 : 1 ≤ i) (hi2 : i ≤ maxLen) (hc : CleanInv maxLen b) :
    CleanInv maxLen { b with
      heap := (renew (b.heap.push (heapGet b.heap i)) i).setD b.heap.size
        { heapGet (renew (b.heap.push (heapGet b.heap i)) i) b.heap.size with
            id := (b.states.length : Int) },
      states := b.states ++ [b.heap.size] } := by
  have hsz : 0 < b.heap.size := by have := hc.hsize; omega
  have hine : i ≠ b.heap.size := by have := hc.hsize; omega
  have hv : heapGet (renew (b.heap.push (heapGet b.heap i)) i) b.heap.size
      = heapGet b.heap i := by
    rw [heapGet_renew_ne _ _ _ (Ne.symm hine), heapGet_push_self]
  have hH : ∀ r, (r < b.heap.size ∧ r ≠ i ∧
        heapGet ((renew (b.heap.push (heapGet b.heap i)) i).setD b.heap.size
          { heapGet (renew (b.heap.push (heapGet b.heap i)) i) b.heap.size with
              id := (b.states.length : Int) }) r = heapGet b.heap r) ∨
      (r = i ∧
        heapGet ((renew (b.heap.push (heapGet b.heap i)) i).setD b.heap.size
          { heapGet (renew (b.heap.push (heapGet b.heap i)) i) b.heap.size with
              id := (b.states.length : Int) }) r = stRenew (heapGet b.heap i)) ∨
      (r = b.heap.size ∧
        heapGet ((renew (b.heap.push (heapGet b.heap i)) i).setD b.heap.size
          { heapGet (renew (b.heap.push (heapGet b.heap i)) i) b.heap.size with
              id := (b.states.length : Int) }) r
          = { heapGet b.heap i with id := (b.states.length : Int) }) ∨
      (b.heap.size < r ∧
        heapGet ((renew (b.heap.push (heapGet b.heap i)) i).setD b.heap.size
          { heapGet (renew (b.heap.push (heapGet b.heap i)) i) b.heap.size with
              id := (b.states.length : Int) }) r = default) := by
    intro r
    by_cases hri : r = i
    · subst hri
      refine Or.inr (Or.inl ⟨rfl, ?_⟩)
      rw [heapGet_setD_ne _ _ _ _ hine]
      have hlt : r < (b.heap.push (heapGet b.heap r)).size := by
        rw [Array.size_push]
        have := hc.hsize; omega
      rw [heapGet_renew_self _ _ hlt, heapGet_push_lt _ _ _ (by have := hc.hsize; omega)]
    · by_cases hr : r < b.heap.size
      · refine Or.inl ⟨hr, hri, ?_⟩
        rw [heapGet_setD_ne _ _ _ _ (by omega), heapGet_renew_ne _ _ _ hri,
          heapGet_push_lt _ _ _ hr]
      · by_cases hr2 : r = b.heap.size
        · subst hr2
          refine Or.inr (Or.inr (Or.inl ⟨rfl, ?_⟩))
          rw [hv, heapGet_setD_self _ _ _ (by rw [size_renew, Array.size_push]; omega)]
        · refine Or.inr (Or.inr (Or.inr ⟨by omega, ?_⟩))
          rw [heapGet_setD_ne _ _ _ _ (by omega), heapGet_renew_ne _ _ _ hri,
            heapGet_oob _ _ (by rw [Array.size_push]; omega)]
  refine ⟨?_, ?_, ?_, ?_, ?_, ?_, ?_, ?_⟩
  · show maxLen < ((renew _ _).setD _ _).size
    rw [size_setD, size_renew, Array.size_push]
    have := hc.hsize; omega
  · intro r hr
    rcases List.mem_append.mp hr with h | h
    · exact hc.hrefs r h
    · rcases List.mem_singleton.mp h with rfl
      exact hc.hsize
  · intro r hr
    show r < ((renew _ _).setD _ _).size
    rw [size_setD, size_renew, Array.size_push]
    rcases List.mem_append.mp hr with h | h
    · have := hc.hlt r h; omega
    · rcases List.mem_singleton.mp h with rfl
      omega
  · intro r
    rcases hH r with ⟨_, _, he⟩ | ⟨_, he⟩ | ⟨_, he⟩ | ⟨_, he⟩ <;> rw [he]
    · exact hc.hwf r
    · show List.Pairwise _ (stRenew (heapGet b.heap i)).output
      rw [(stRenew_fields _).2.1]
      exact List.Pairwise.nil
    · exact hc.hwf i
    · exact List.Pairwise.nil
  · intro r q hq
    rcases hH r with ⟨_, _, he⟩ | ⟨_, he⟩ | ⟨_, he⟩ | ⟨_, he⟩ <;> rw [he] at hq
    · exact hc.hnz r q hq
    · rw [(stRenew_fields _).2.1] at hq
      cases hq
    · exact hc.hnz i q hq
    · cases hq
  · rcases hH 0 with ⟨_, _, he⟩ | ⟨h0, he⟩ | ⟨h0, _⟩ | ⟨h0, _⟩
    · rw [he]; exact hc.hnf0
    · rw [he]; exact (stRenew_fields _).2.2.2
    · omega
    · omega
  · intro j hj1 hj2
    rcases hH j with ⟨_, _, he⟩ | ⟨_, he⟩ | ⟨hj, _⟩ | ⟨hj, _⟩
    · rw [he]; exact hc.htf j hj1 hj2
    · rw [he]; exact (stRenew_fields _).2.2.1
    · have := hc.hsize; omega
    · have := hc.hsize; omega
  · intro r hr
    rcases List.mem_append.mp hr with h | h
    · rcases hH r with ⟨_, _, he⟩ | ⟨hri, he⟩ | ⟨hq, _⟩ | ⟨hq, _⟩
      · rw [he]; exact hc.hclean r h
      · rw [he]; exact Or.inl (stRenew_fields _).2.2.2
      · exact absurd (hc.hlt r h) (by omega)
      · exact absurd (hc.hlt r h) (by omega)
    · rcases List.mem_singleton.mp h with rfl
      rcases hH b.heap.size with ⟨hq, _, _⟩ | ⟨hq, _⟩ | ⟨_, he⟩ | ⟨hq, _⟩
      · omega
      · omega
      · rw [he]
        exact Or.inr (hc.htf i hi1 hi2)
      · omega

theorem freezeStepMain_clean (maxLen : Nat) (b : BuildSt) (i ch : Nat) (b' : BuildSt)
    (hi1 : 1 ≤ i) (hi2 : i ≤ maxLen) (hc : CleanInv maxLen b)
    (hok : freezeStepMain b i ch = .ok b') : CleanInv maxLen b' := by
  rcases freezeStepMain_cases b i ch b' hok with ⟨s, hst, hh⟩ | ⟨hst, hh⟩
  · exact cleanInv_congr maxLen
      { b with heap := setTransition (renew b.heap i) (i - 1) ch s } b' hh hst
      (cleanInv_setTransition maxLen { b with heap := renew b.heap i } (i - 1) ch s
        (cleanInv_renew maxLen b i hc))
  · exact cleanInv_congr maxLen
      { b with
        heap := setTransition (renew ((b.heap.push (heapGet b.heap i)).setD b.heap.size
          { heapGet b.heap i with id := (b.states.length : Int) }) i) (i - 1) ch b.heap.size,
        states := b.states ++ [b.heap.size] } b' hh hst
      (cleanInv_setTransition maxLen
        { b with
          heap := renew ((b.heap.push (heapGet b.heap i)).setD b.heap.size
            { heapGet b.heap i with id := (b.states.length : Int) }) i,
          states := b.states ++ [b.heap.size] }
        (i - 1) ch b.heap.size
        (cleanInv_renew maxLen
          { b with
            heap := (b.heap.push (heapGet b.heap i)).setD b.heap.size
              { heapGet b.heap i with id := (b.states.length : Int) },
            states := b.states ++ [b.heap.size] } i
          (cleanInv_register maxLen b i hi1 hi2 hc)))

theorem freezeStepFlush_clean (maxLen : Nat) (b : BuildSt) (i ch : Nat) (b' : BuildSt)
    (hi1 : 1 ≤ i) (hi2 : i ≤ maxLen) (hc : CleanInv maxLen b)
    (hok : freezeStepFlush b i ch = .ok b') : CleanInv maxLen b' := by
  rcases freezeStepFlush_cases b i ch b' hok with ⟨s, hst, hh⟩ | ⟨hst, hh⟩
  · exact cleanInv_congr maxLen
      { b with heap := setTransition b.heap (i - 1) ch s } b' hh hst
      (cleanInv_setTransition maxLen b (i - 1) ch s hc)
  · exact cleanInv_congr maxLen
      { b with
        heap := setTransition ((renew (b.heap.push (heapGet b.heap i)) i).setD b.heap.size
          { heapGet (renew (b.heap.push (heapGet b.heap i)) i) b.heap.size with
              id := (b.states.length : Int) }) (i - 1) ch b.heap.size,
        states := b.states ++ [b.heap.size] } b' hh hst
      (cleanInv_setTransition maxLen
        { b with
          heap := (renew (b.heap.push (heapGet b.heap i)) i).setD b.heap.size
            { heapGet (renew (b.heap.push (heapGet b.heap i)) i) b.heap.size with
                id := (b.states.length : Int) },
          states := b.states ++ [b.heap.size] }
        (i - 1) ch b.heap.size
        (cleanInv_registerFlush maxLen b i hi1 hi2 hc))

theorem cleanInv_extendLoop (maxLen : Nat) (b : BuildSt) (inStr : List Nat) :
    ∀ k i h, CleanInv maxLen { b with heap := h } →
      CleanInv maxLen { b with heap := extendLoop inStr i k h } := by
  intro k
  induction k with
  | zero => intro i h hc; exact hc
  | succ n ih =>
    intro i h hc
    show CleanInv maxLen { b with
      heap := extendLoop inStr (i + 1) n (setTransition h (i - 1) (inStr.getD (i - 1) 0) i) }
    exact ih (i + 1) _
      (cleanInv_setTransition maxLen { b with heap := h } (i - 1) (inStr.getD (i - 1) 0) i hc)

theorem freezeLoopMain_clean (maxLen : Nat) (prev : List Nat) (pl : Nat) :
    ∀ k b b', pl + k ≤ maxLen → CleanInv maxLen b →
      freezeLoopMain prev pl k b = .ok b' → CleanInv maxLen b' := by
  intro k
  induction k with
  | zero =>
    intro b b' _ hc hok
    cases hok
    exact hc
  | succ n ih =>
    intro b b' hk hc hok
    unfold freezeLoopMain at hok
    dsimp only at hok
    simp only [bind, Except.bind] at hok
    rcases hstep : freezeStepMain b (pl + n + 1) (prev.getD (pl + n + 1 - 1) 0) with e | b1 <;>
      rw [hstep] at hok
    · cases hok
    · exact ih b1 b' (by omega)
        (freezeStepMain_clean maxLen b (pl + n + 1) _ b1 (by omega) (by omega) hc hstep) hok

theorem flushLoop_clean (maxLen : Nat) (prev : List Nat) :
    ∀ k b b', k ≤ maxLen → CleanInv maxLen b →
      flushLoop prev k b = .ok b' → CleanInv maxLen b' := by
  intro k
  induction k with
  | zero =>
    intro b b' _ hc hok
    cases hok
    exact hc
  | succ n ih =>
    intro b b' hk hc hok
    unfold flushLoop at hok
    simp only [bind, Except.bind] at hok
    rcases hstep : freezeStepFlush b (n + 1) (prev.getD n 0) with e | b1 <;>
      rw [hstep] at hok
    · cases hok
    · exact ih b1 b' (by omega)
        (freezeStepFlush_clean maxLen b (n + 1) _ b1 (by omega) (by omega) hc hstep) hok

theorem freezeLoopMain_mono (prev : List Nat) (pl : Nat) :
    ∀ k b b', 0 < b.heap.size → freezeLoopMain prev pl k b = .ok b' →
      cell0Mono b.heap b'.heap ∧ b.heap.size ≤ b'.heap.size := by
  intro k
  induction k with
  | zero =>
    intro b b' _ hok
    cases hok
    exact ⟨cell0Mono_refl _, le_refl _⟩
  | succ n ih =>
    intro b b' hsz hok
    unfold freezeLoopMain at hok
    dsimp only at hok
    simp only [bind, Except.bind] at hok
    rcases hstep : freezeStepMain b (pl + n + 1) (prev.getD (pl + n + 1 - 1) 0) with e | b1 <;>
      rw [hstep] at hok
    · cases hok
    · have hm := freezeStepMain_cell0Mono b (pl + n + 1) _ b1 (by omega) hsz hstep
      have hs := freezeStepMain_size_mono b (pl + n + 1) _ b1 hstep
      have hrec := ih b1 b' (by omega) hok
      exact ⟨cell0Mono_trans hm hrec.1, le_trans hs hrec.2⟩

/-- A nonempty freeze loop at prefix length 0 ends with the iteration `i = 1`,
which wires `buf[0]`'s transition for `prev[0]`; afterwards that entry can
only be preserved. -/
theorem freezeLoopMain_wired0 (prev : List Nat) :
    ∀ k b b', 0 < b.heap.size → 1 ≤ k → freezeLoopMain prev 0 k b = .ok b' →
      lookupA (heapGet b'.heap 0).trans (prev.getD 0 0) ≠ none := by
  intro k
  induction k with
  | zero => intro b b' _ hk; omega
  | succ n ih =>
    intro b b' hsz _ hok
    unfold freezeLoopMain at hok
    dsimp only at hok
    simp only [bind, Except.bind] at hok
    rcases hstep : freezeStepMain b (0 + n + 1) (prev.getD (0 + n + 1 - 1) 0) with e | b1 <;>
      rw [hstep] at hok
    · cases hok
    · cases n with
      | zero =>
        cases hok
        have h1 : (0 + 0 + 1 : Nat) = 1 := rfl
        have h2 : (0 + 0 + 1 - 1 : Nat) = 0 := rfl
        rw [h1, h2] at hstep
        exact freezeStepMain_wired b (prev.getD 0 0) b' hsz hstep
      | succ m =>
        have hs := freezeStepMain_size_mono b (0 + (m + 1) + 1) _ b1 hstep
        exact ih b1 b' (by omega) (by omega) hok

theorem flushLoop_mono (prev : List Nat) :
    ∀ k b b', 0 < b.heap.size → flushLoop prev k b = .ok b' →
      cell0Mono b.heap b'.heap ∧ b.heap.size ≤ b'.heap.size := by
  intro k
  induction k with
  | zero =>
    intro b b' _ hok
    cases hok
    exact ⟨cell0Mono_refl _, le_refl _⟩
  | succ n ih =>
    intro b b' hsz hok
    unfold flushLoop at hok
    simp only [bind, Except.bind] at hok
    rcases hstep : freezeStepFlush b (n + 1) (prev.getD n 0) with e | b1 <;>
      rw [hstep] at hok
    · cases hok
    · have hm := freezeStepFlush_cell0Mono b (n + 1) _ b1 (by omega) hsz hstep
      have hs := freezeStepFlush_size_mono b (n + 1) _ b1 hstep
      have hrec := ih b1 b' (by omega) hok
      exact ⟨cell0Mono_trans hm hrec.1, le_trans hs hrec.2⟩

/-- A nonempty flush loop ends with the iteration `i = 1`, which wires
`buf[0]`'s transition for `prev[0]`. -/
theorem flushLoop_wired0 (prev : List Nat) :
    ∀ k b b', 0 < b.heap.size → 1 ≤ k → flushLoop prev k b = .ok b' →
      lookupA (heapGet b'.heap 0).trans (prev.getD 0 0) ≠ none := by
  intro k
  induction k with
  | zero => intro b b' _ hk; omega
  | succ n ih =>
    intro b b' hsz _ hok
    unfold flushLoop at hok
    simp only [bind, Except.bind] at hok
    rcases hstep : freezeStepFlush b (n + 1) (prev.getD n 0) with e | b1 <;>
      rw [hstep] at hok
    · cases hok
    · cases n with
      | zero =>
        cases hok
        exact freezeStepFlush_wired b (prev.getD 0 0) b' hsz hstep
      | succ m =>
        have hs := freezeStepFlush_size_mono b (m + 1 + 1) _ b1 hstep
        exact ih b1 b' (by omega) (by omega) hok

/-- One entry of the main loop, starting from a clean builder state: either
the state stays clean, or the iteration stripped `buf[0]`'s output entry for
the entry's first byte and the hole invariant is established for that byte. -/
theorem processEntry_clean (maxLen : Nat) (b : BuildSt) (prev : List Nat) (p : Pair)
    (b1 : BuildSt) (prev1 : List Nat)
    (hplen : prev.length ≤ maxLen) (hilen : p.in_.length ≤ maxLen)
    (hsort : lexLeB prev p.in_ = true)
    (hc : CleanInv maxLen b)
    (hok : processEntry b prev p = .ok (b1, prev1)) :
    prev1 = p.in_ ∧ 0 < b1.heap.size ∧
      (CleanInv maxLen b1 ∨ ∃ B, HolePred b1.heap prev1 B) := by
  unfold processEntry at hok
  simp only [bind, Except.bind, pure, Except.pure] at hok
  split at hok
  · cases hok
  · rename_i bf hfz
    have hcf : CleanInv maxLen bf :=
      freezeLoopMain_clean maxLen prev (commonPrefixLen p.in_ prev) _ b bf
        (by have := commonPrefixLen_le_right p.in_ prev; omega) hc hfz
    by_cases hip : p.in_ = prev
    · -- repeated key: no freeze work below the prefix, no setFinal
      simp only [hip, ne_eq, not_true_eq_false, if_false, commonPrefixLen_self] at hok
      have h0 : prev.length - (prev.length + 1) = 0 := by omega
      rw [h0] at hok
      simp only [extendLoop] at hok
      split at hok
      · cases hok
      · rename_i a hrd
        obtain ⟨b2, out2⟩ := a
        simp only [] at hok
        have hwf0 : outWF (heapGet bf.heap 0) := hcf.hwf 0
        have hsz0 : 0 < bf.heap.size := by have := hcf.hsize; omega
        rcases redisLoop_start_cases prev prev.length p.out { bf with heap := bf.heap }
            b2 out2 hsz0 hwf0 hrd with ⟨hb2, hcase⟩ | ⟨hk1, hnone, hst, hsz⟩
        · rcases hcase with ⟨hk0, hout2⟩ | ⟨hout2, hlook⟩
          · -- prev empty: the placement is an addTail on cell 0
            have hpnil : prev = [] := List.length_eq_zero.mp hk0
            subst hpnil
            split at hok
            · cases hok
              refine ⟨hip.symm, ?_, Or.inl ?_⟩
              · show 0 < (addTail b2.heap ([] : List Nat).length out2).size
                rw [size_addTail, hb2]
                exact hsz0
              · exact cleanInv_congr maxLen
                  { b2 with heap := addTail b2.heap 0 out2 } _ rfl rfl
                  (cleanInv_addTail0 maxLen b2 out2 (by rw [hb2]; exact hcf))
            · cases hok
              refine ⟨hip.symm, ?_, Or.inl ?_⟩
              · rw [hb2]; exact hsz0
              · exact cleanInv_congr maxLen b2 _ rfl rfl (by rw [hb2]; exact hcf)
          · -- equality break: the stored value is nonzero, so no tail is added
            have hnzv : p.out ≠ 0 := by
              have := hcf.hnz 0 _ (lookupA_some_mem _ _ _ hlook)
              exact this
            split at hok
            · rename_i hcnd
              rw [hout2] at hcnd
              simp [hnzv] at hcnd
            · cases hok
              refine ⟨hip.symm, ?_, Or.inl ?_⟩
              · rw [hb2]; exact hsz0
              · exact cleanInv_congr maxLen b2 _ rfl rfl (by rw [hb2]; exact hcf)
        · -- strip at j = 1: the hole is established for prev[0]
          obtain ⟨q0, qs, hq⟩ : ∃ q0 qs, prev = q0 :: qs := by
            cases prev with
            | nil => simp at hk1
            | cons q0 qs => exact ⟨q0, qs, rfl⟩
          split at hok
          · cases hok
            refine ⟨hip.symm, ?_, Or.inr ⟨prev.getD 0 0, ?_, q0, qs, hq, Or.inl ?_⟩⟩
            · show 0 < (addTail b2.heap prev.length out2).size
              rw [size_addTail, hsz]
              exact hsz0
            · show lookupA (heapGet (addTail b2.heap prev.length out2) 0).output
                (prev.getD 0 0) = none
              rw [heapGet_addTail_ne _ _ _ _ (by rw [hq]; simp)]
              exact hnone
            · rw [hq]; rfl
          · cases hok
            refine ⟨hip.symm, ?_, Or.inr ⟨prev.getD 0 0, hnone, q0, qs, hq, Or.inl ?_⟩⟩
            · rw [hsz]; exact hsz0
            · rw [hq]; rfl
    · -- new key: the freeze ran for the suffix of prev, the key cell is set final
      have hipne : p.in_ ≠ prev := hip
      have hinne : p.in_ ≠ [] := by
        intro hnil
        exact hip (by rw [hnil, lexLeB_nil_elim prev (hnil ▸ hsort)])
      simp only [ne_eq, hip, not_false_eq_true, if_true] at hok
      split at hok
      · cases hok
      · rename_i a hrd
        obtain ⟨b2, out2⟩ := a
        simp only [] at hok
        cases hok
        have hcH2 : CleanInv maxLen { bf with
            heap := setFinal (extendLoop p.in_ (commonPrefixLen p.in_ prev + 1)
              (p.in_.length - (commonPrefixLen p.in_ prev + 1)) bf.heap) p.in_.length } :=
          cleanInv_setFinal maxLen
            { bf with
              heap := extendLoop p.in_ (commonPrefixLen p.in_ prev + 1)
                (p.in_.length - (commonPrefixLen p.in_ prev + 1)) bf.heap }
            p.in_.length (by simpa using hinne) hilen
            (cleanInv_extendLoop maxLen bf p.in_ _ _ _ hcf)
        have hwf0 : outWF (heapGet (setFinal (extendLoop p.in_
            (commonPrefixLen p.in_ prev + 1)
            (p.in_.length - (commonPrefixLen p.in_ prev + 1)) bf.heap) p.in_.length) 0) :=
          hcH2.hwf 0
        have hsz0 : 0 < (setFinal (extendLoop p.in_ (commonPrefixLen p.in_ prev + 1)
            (p.in_.length - (commonPrefixLen p.in_ prev + 1)) bf.heap) p.in_.length).size := by
          have h := hcH2.hsize
          dsimp only at h
          omega
        rcases redisLoop_start_cases p.in_ (commonPrefixLen p.in_ prev) p.out _
            b2 out2 hsz0 hwf0 hrd with ⟨hb2, _⟩ | ⟨hk1, hnone, hst, hsz⟩
        · refine ⟨rfl, ?_, Or.inl ?_⟩
          · show 0 < (setOutput b2.heap (commonPrefixLen p.in_ prev) _ out2).size
            rw [size_setOutput, hb2]
            exact hsz0
          · exact cleanInv_congr maxLen
              { b2 with
                heap := setOutput b2.heap (commonPrefixLen p.in_ prev)
                  (p.in_.getD (commonPrefixLen p.in_ prev) 0) out2 } _ rfl rfl
              (cleanInv_setOutput maxLen b2 _ _ _ (by rw [hb2]; exact hcH2))
        · obtain ⟨i0, irest, hi⟩ : ∃ i0 irest, p.in_ = i0 :: irest := by
            cases him : p.in_ with
            | nil => exact absurd him hinne
            | cons i0 irest => exact ⟨i0, irest, rfl⟩
          refine ⟨rfl, ?_, Or.inr ⟨p.in_.getD 0 0, ?_, i0, irest, hi, Or.inl ?_⟩⟩
          · show 0 < (setOutput b2.heap (commonPrefixLen p.in_ prev) _ out2).size
            rw [size_setOutput, hsz]
            exact hsz0
          · show lookupA (heapGet (setOutput b2.heap (commonPrefixLen p.in_ prev)
                (p.in_.getD (commonPrefixLen p.in_ prev) 0) out2) 0).output
              (p.in_.getD 0 0) = none
            rw [heapGet_setOutput_ne _ _ _ _ _ (by omega)]
            exact hnone
          · rw [hi]; rfl

theorem redisLoop_zero (inStr : List Nat) (j : Nat) (out : Int) (b : BuildSt) :
    redisLoop inStr j 0 out b = .ok (b, out) := rfl

theorem lookupA_stSetOutput_ne (s : StateData) (ch : Nat) (v : Int) (k : Nat)
    (hk : k ≠ ch) : lookupA (stSetOutput s ch v).output k = lookupA s.output k := by
  rw [stSetOutput_output]
  split
  · rfl
  · exact lookupA_insertA_ne _ _ _ _ hk

/-- One entry of the main loop, starting with a hole at byte `B` on state 0:
the hole persists.  When the entry's key starts the same byte group (`B` is
also the key's first byte) the redistribution loop would have to look up the
erased entry and throw, so a successful entry either moves to a later group
(wiring the transition for `B` on the way out) or already is in one. -/
theorem processEntry_hole (b : BuildSt) (prev : List Nat) (p : Pair)
    (b1 : BuildSt) (prev1 : List Nat) (B : Nat)
    (hsz : 0 < b.heap.size)
    (hsort : lexLeB prev p.in_ = true)
    (hhole : HolePred b.heap prev B)
    (hok : processEntry b prev p = .ok (b1, prev1)) :
    prev1 = p.in_ ∧ 0 < b1.heap.size ∧ HolePred b1.heap prev1 B := by
  obtain ⟨hnone0, p0, ps, hprev, hdisj⟩ := hhole
  subst hprev
  obtain ⟨in0, irest, hin⟩ : ∃ in0 irest, p.in_ = in0 :: irest := by
    cases him : p.in_ with
    | nil => exact absurd him (lexLeB_nonempty p0 ps p.in_ hsort)
    | cons i0 ir => exact ⟨i0, ir, rfl⟩
  have hhead : p0 ≤ in0 := lexLeB_head p0 in0 ps irest (by rw [hin] at hsort; exact hsort)
  unfold processEntry at hok
  simp only [bind, Except.bind, pure, Except.pure] at hok
  split at hok
  · cases hok
  · rename_i bf hfz
    have hmono := freezeLoopMain_mono (p0 :: ps) (commonPrefixLen p.in_ (p0 :: ps)) _ b bf
      hsz hfz
    have hszf : 0 < bf.heap.size := by have := hmono.2; omega
    by_cases hip : p.in_ = p0 :: ps
    · -- repeated key
      simp only [hip, ne_eq, not_true_eq_false, if_false, commonPrefixLen_self] at hok
      have h0 : (p0 :: ps).length - ((p0 :: ps).length + 1) = 0 := by omega
      rw [h0] at hok
      simp only [extendLoop] at hok
      rcases hdisj with hpB | ⟨hBlt, htrans⟩
      · -- the group continues at B: the redistribution lookup must throw
        split at hok
        · cases hok
        · rename_i a hrd
          have hno : lookupA (heapGet bf.heap 0).output ((p0 :: ps).getD 0 0) = none := by
            have hg : (p0 :: ps).getD 0 0 = p0 := rfl
            rw [hg, hpB, hmono.1.1]
            exact hnone0
          rw [List.length_cons] at hrd
          rw [redisLoop_start_err (p0 :: ps) ps.length p.out { bf with heap := bf.heap } hno]
            at hrd
          cases hrd
      · -- the group has ended: the hole survives the redistribution
        split at hok
        · cases hok
        · rename_i a hrd
          obtain ⟨b2, out2⟩ := a
          simp only [] at hok
          have hpres := redisLoop_holePreserve (p0 :: ps) (p0 :: ps).length p.out
            { bf with heap := bf.heap } b2 out2 B (by show p0 ≠ B; omega) hrd
            (by show lookupA (heapGet bf.heap 0).output B = none
                rw [hmono.1.1]; exact hnone0)
          have htrans2 : lookupA (heapGet b2.heap 0).trans B ≠ none :=
            hpres.2.1 (hmono.1.2.2.2 B htrans)
          have hsz2 : 0 < b2.heap.size := by
            have h2 := hpres.2.2
            dsimp only at h2
            omega
          split at hok
          · cases hok
            refine ⟨hip.symm, ?_, ?_, p0, ps, rfl, Or.inr ⟨hBlt, ?_⟩⟩
            · show 0 < (addTail b2.heap (p0 :: ps).length out2).size
              rw [size_addTail]; exact hsz2
            · show lookupA (heapGet (addTail b2.heap (p0 :: ps).length out2) 0).output B
                = none
              rw [heapGet_addTail_ne _ _ _ _ (by simp)]
              exact hpres.1
            · show lookupA (heapGet (addTail b2.heap (p0 :: ps).length out2) 0).trans B
                ≠ none
              rw [heapGet_addTail_ne _ _ _ _ (by simp)]
              exact htrans2
          · cases hok
            exact ⟨hip.symm, hsz2, hpres.1, p0, ps, rfl, Or.inr ⟨hBlt, htrans2⟩⟩
    · -- a new key: its first byte is at least p0
      simp only [ne_eq, hip, not_false_eq_true, if_true] at hok
      generalize hH2 : setFinal (extendLoop p.in_ (commonPrefixLen p.in_ (p0 :: ps) + 1)
        (p.in_.length - (commonPrefixLen p.in_ (p0 :: ps) + 1)) bf.heap) p.in_.length = H2
        at hok
      have hmH2 : cell0Mono bf.heap H2 := by
        rw [← hH2]
        exact cell0Mono_trans (extendLoop_cell0Mono p.in_ _ _ bf.heap)
          (cell0Mono_of_eq (heapGet_setFinal_ne _ _ _ (by rw [hin]; simp)))
      have m2 := cell0Mono_trans hmono.1 hmH2
      have hszH2 : 0 < H2.size := by
        rw [← hH2, size_setFinal, extendLoop_size]
        exact hszf
      split at hok
      · cases hok
      · rename_i a hrd
        obtain ⟨b2, out2⟩ := a
        simp only [] at hok
        cases hok
        rcases hdisj with hpB | ⟨hBlt, htrans⟩
        · by_cases h00 : in0 = p0
          · -- same first byte: prefix length at least 1, so the lookup throws
            have hpl : 1 ≤ commonPrefixLen p.in_ (p0 :: ps) := by
              rw [hin, h00]
              exact commonPrefixLen_head_eq p0 irest ps
            obtain ⟨m, hm⟩ : ∃ m, commonPrefixLen p.in_ (p0 :: ps) = m + 1 :=
              ⟨commonPrefixLen p.in_ (p0 :: ps) - 1, by omega⟩
            rw [hm] at hrd
            rw [redisLoop_start_err p.in_ m p.out { bf with heap := H2 }
              (by show lookupA (heapGet H2 0).output (p.in_.getD 0 0) = none
                  have hg : p.in_.getD 0 0 = in0 := by rw [hin]; rfl
                  rw [hg, h00, hpB, m2.1]
                  exact hnone0)] at hrd
            cases hrd
          · -- the key moves past the group: prefix length 0, the transition
            -- for B was wired by the freeze loop
            have hpl0 : commonPrefixLen p.in_ (p0 :: ps) = 0 := by
              rw [hin]
              exact commonPrefixLen_head_ne _ _ _ _ h00
            rw [hpl0] at hfz hrd ⊢
            rw [redisLoop_zero] at hrd
            cases hrd
            have hwired : lookupA (heapGet bf.heap 0).trans ((p0 :: ps).getD 0 0)
                ≠ none :=
              freezeLoopMain_wired0 (p0 :: ps) _ b bf hsz (by simp) hfz
            have hwB : lookupA (heapGet bf.heap 0).trans B ≠ none := by
              have hg : (p0 :: ps).getD 0 0 = p0 := rfl
              rw [hg, hpB] at hwired
              exact hwired
            have hBin0 : B < in0 := by omega
            refine ⟨rfl, ?_, ?_, in0, irest, hin, Or.inr ⟨hBin0, ?_⟩⟩
            · show 0 < (setOutput H2 0 (p.in_.getD 0 0) p.out).size
              rw [size_setOutput]
              exact hszH2
            · show lookupA (heapGet (setOutput H2 0 (p.in_.getD 0 0) p.out) 0).output B
                = none
              rw [heapGet_setOutput_self _ _ _ _ hszH2,
                lookupA_stSetOutput_ne _ _ _ _ (by rw [hin]; show B ≠ in0; omega),
                m2.1]
              exact hnone0
            · show lookupA (heapGet (setOutput H2 0 (p.in_.getD 0 0) p.out) 0).trans B
                ≠ none
              rw [heapGet_setOutput_self _ _ _ _ hszH2, stSetOutput_trans]
              exact hmH2.2.2.2 B hwB
        · -- the group had already ended
          have hne0 : p.in_.getD 0 0 ≠ B := by
            rw [hin]
            show in0 ≠ B
            omega
          have hpres := redisLoop_holePreserve p.in_ (commonPrefixLen p.in_ (p0 :: ps))
            p.out { bf with heap := H2 } b2 out2 B hne0 hrd
            (by show lookupA (heapGet H2 0).output B = none
                rw [m2.1]
                exact hnone0)
          have htrans2 : lookupA (heapGet b2.heap 0).trans B ≠ none :=
            hpres.2.1 (m2.2.2.2 B htrans)
          have hsz2 : 0 < b2.heap.size := by
            have h2 := hpres.2.2
            dsimp only at h2
            omega
          have hBin0 : B < in0 := by omega
          by_cases hpl0 : commonPrefixLen p.in_ (p0 :: ps) = 0
          · rw [hpl0]
            refine ⟨rfl, ?_, ?_, in0, irest, hin, Or.inr ⟨hBin0, ?_⟩⟩
            · show 0 < (setOutput b2.heap 0 (p.in_.getD 0 0) out2).size
              rw [size_setOutput]
              exact hsz2
            · show lookupA (heapGet (setOutput b2.heap 0 (p.in_.getD 0 0) out2) 0).output B
                = none
              rw [heapGet_setOutput_self _ _ _ _ hsz2,
                lookupA_stSetOutput_ne _ _ _ _ (Ne.symm hne0)]
              exact hpres.1
            · show lookupA (heapGet (setOutput b2.heap 0 (p.in_.getD 0 0) out2) 0).trans B
                ≠ none
              rw [heapGet_setOutput_self _ _ _ _ hsz2, stSetOutput_trans]
              exact htrans2
          · refine ⟨rfl, ?_, ?_, in0, irest, hin, Or.inr ⟨hBin0, ?_⟩⟩
            · show 0 < (setOutput b2.heap (commonPrefixLen p.in_ (p0 :: ps))
                (p.in_.getD (commonPrefixLen p.in_ (p0 :: ps)) 0) out2).size
              rw [size_setOutput]
              exact hsz2
            · show lookupA (heapGet (setOutput b2.heap (commonPrefixLen p.in_ (p0 :: ps))
                  (p.in_.getD (commonPrefixLen p.in_ (p0 :: ps)) 0) out2) 0).output B
                = none
              rw [heapGet_setOutput_ne _ _ _ _ _ (Ne.symm hpl0)]
              exact hpres.1
            · show lookupA (heapGet (setOutput b2.heap (commonPrefixLen p.in_ (p0 :: ps))
                  (p.in_.getD (commonPrefixLen p.in_ (p0 :: ps)) 0) out2) 0).trans B
                ≠ none
              rw [heapGet_setOutput_ne _ _ _ _ _ (Ne.symm hpl0)]
              exact htrans2

theorem mainLoop_hole :
    ∀ (l : List Pair) (b : BuildSt) (prev : List Nat) (b1 : BuildSt) (prev1 : List Nat)
      (B : Nat),
      0 < b.heap.size →
      (∀ q ∈ l, lexLeB prev q.in_ = true) →
      List.Pairwise (fun a c : Pair => lexLeB a.in_ c.in_ = true) l →
      HolePred b.heap prev B →
      mainLoop l b prev = .ok (b1, prev1) →
      0 < b1.heap.size ∧ HolePred b1.heap prev1 B := by
  intro l
  induction l with
  | nil =>
    intro b prev b1 prev1 B hsz _ _ hh hok
    cases hok
    exact ⟨hsz, hh⟩
  | cons p rest ih =>
    intro b prev b1 prev1 B hsz hprev hpw hh hok
    unfold mainLoop at hok
    simp only [bind, Except.bind] at hok
    split at hok
    · cases hok
    · rename_i a hpe
      obtain ⟨bm, prevm⟩ := a
      simp only [] at hok
      have hstep := processEntry_hole b prev p bm prevm B hsz
        (hprev p (List.mem_cons_self p rest)) hh hpe
      refine ih bm prevm b1 prev1 B hstep.2.1 ?_ (List.pairwise_cons.mp hpw).2
        hstep.2.2 hok
      intro q hq
      rw [hstep.1]
      exact (List.pairwise_cons.mp hpw).1 q hq

theorem mainLoop_clean (maxLen : Nat) :
    ∀ (l : List Pair) (b : BuildSt) (prev : List Nat) (b1 : BuildSt) (prev1 : List Nat),
      CleanInv maxLen b →
      (∀ q ∈ l, lexLeB prev q.in_ = true) →
      List.Pairwise (fun a c : Pair => lexLeB a.in_ c.in_ = true) l →
      (∀ q ∈ l, q.in_.length ≤ maxLen) →
      prev.length ≤ maxLen →
      mainLoop l b prev = .ok (b1, prev1) →
      (CleanInv maxLen b1 ∧ prev1.length ≤ maxLen) ∨
        (0 < b1.heap.size ∧ ∃ B, HolePred b1.heap prev1 B) := by
  intro l
  induction l with
  | nil =>
    intro b prev b1 prev1 hc _ _ _ hplen hok
    cases hok
    exact Or.inl ⟨hc, hplen⟩
  | cons p rest ih =>
    intro b prev b1 prev1 hc hprev hpw hlen hplen hok
    unfold mainLoop at hok
    simp only [bind, Except.bind] at hok
    split at hok
    · cases hok
    · rename_i a hpe
      obtain ⟨bm, prevm⟩ := a
      simp only [] at hok
      have hstep := processEntry_clean maxLen b prev p bm prevm hplen
        (hlen p (List.mem_cons_self p rest)) (hprev p (List.mem_cons_self p rest)) hc hpe
      have hprevm : ∀ q ∈ rest, lexLeB prevm q.in_ = true := by
        intro q hq
        rw [hstep.1]
        exact (List.pairwise_cons.mp hpw).1 q hq
      rcases hstep.2.2 with hcl | ⟨B, hhB⟩
      · exact ih bm prevm b1 prev1 hcl hprevm (List.pairwise_cons.mp hpw).2
          (fun q hq => hlen q (List.mem_cons_of_mem p hq))
          (by rw [hstep.1]; exact hlen p (List.mem_cons_self p rest)) hok
      · have := mainLoop_hole rest bm prevm b1 prev1 B hstep.2.1 hprevm
          (List.pairwise_cons.mp hpw).2 hhB hok
        exact Or.inr ⟨this.1, B, this.2⟩

/-- The flush loop seals a hole: `buf[0]`'s output entry for `B` stays absent
and its transition for `B` is present at the end (wired by the final
iteration when the group was still open). -/
theorem flushLoop_hole (p0 : Nat) (ps : List Nat) (b b2 : BuildSt) (B : Nat)
    (hsz : 0 < b.heap.size)
    (hok : flushLoop (p0 :: ps) (p0 :: ps).length b = .ok b2)
    (hh : HolePred b.heap (p0 :: ps) B) :
    holeAt b2.heap B ∧ 0 < b2.heap.size := by
  obtain ⟨hnone, q0, qs, heq, hdisj⟩ := hh
  cases heq
  have hmono := flushLoop_mono (p0 :: ps) (p0 :: ps).length b b2 hsz hok
  have hwired := flushLoop_wired0 (p0 :: ps) (p0 :: ps).length b b2 hsz (by simp) hok
  refine ⟨⟨?_, ?_⟩, by have := hmono.2; omega⟩
  · rw [hmono.1.1]
    exact hnone
  · rcases hdisj with hpB | ⟨_, htr⟩
    · have hg : (p0 :: ps).getD 0 0 = p0 := rfl
      rw [hg, hpB] at hwired
      exact hwired
    · exact hmono.1.2.2.2 B htr

/-- A successfully emitted edge list required an output entry for every edge
byte (`s->output.at(ch)` is evaluated for each of them). -/
theorem emitEdges_ok_output (h : Heap) (s : StateData) :
    ∀ (l : List Nat) (isFirst : Bool) (st st' : EmitSt),
      emitEdges h s isFirst l st = .ok st' →
      ∀ ch ∈ l, lookupA s.output ch ≠ none := by
  intro l
  induction l with
  | nil =>
    intro _ _ _ _ ch hch
    cases hch
  | cons c rest ih =>
    intro isFirst st st' hok ch hch
    unfold emitEdges at hok
    simp only [bind, Except.bind] at hok
    split at hok
    · cases hok
    · rename_i st1 he
      rcases List.mem_cons.mp hch with rfl | hch2
      · rcases hlo : lookupA s.output ch with _ | o
        · exfalso
          unfold emitEdge at he
          simp only [bind, Except.bind, pure, Except.pure, hlo] at he
          split at he
          · cases he
          · cases he
        · simp
      · exact ih false st1 st' hok ch hch2

theorem emitState_ok_output (h : Heap) (r : Nat) (st st' : EmitSt)
    (hok : emitState h r st = .ok st') :
    ∀ ch ∈ edgesDesc (heapGet h r), lookupA (heapGet h r).output ch ≠ none := by
  unfold emitState at hok
  simp only [bind, Except.bind] at hok
  split at hok
  · cases hok
  · rename_i st1 he
    exact emitEdges_ok_output h _ _ true st st1 he

theorem emitStates_ok_output (h : Heap) :
    ∀ (states : List Nat) (st st' : EmitSt),
      emitStates h states st = .ok st' →
      ∀ r ∈ states, ∀ ch ∈ edgesDesc (heapGet h r),
        lookupA (heapGet h r).output ch ≠ none := by
  intro states
  induction states with
  | nil =>
    intro _ _ _ r hr
    cases hr
  | cons c rest ih =>
    intro st st' hok r hr
    unfold emitStates at hok
    simp only [bind, Except.bind] at hok
    split at hok
    · cases hok
    · rename_i st1 he
      rcases List.mem_cons.mp hr with rfl | hr2
      · exact emitState_ok_output h r st st1 he
      · exact ih st1 st' hok r hr2

/-- A hole on a registered state makes the compiler throw: the byte is among
the state's edges, but `s->output.at(ch)` has no entry. -/
theorem buildMachineProv_hole (m : Mast) (B : Nat) (st' : EmitSt)
    (hhole : holeAt m.heap B) (h0 : 0 ∈ m.states)
    (hok : buildMachineProv m = .ok st') : False := by
  obtain ⟨hno, htr⟩ := hhole
  refine emitStates_ok_output m.heap m.states _ st' hok 0 h0 B ?_ hno
  exact List.mem_reverse.mpr (lookupA_mem_keys _ _ htr)

theorem emitEdge_data (h : Heap) (s : StateData) (isFirst : Bool) (ch : Nat)
    (st st' : EmitSt) (hok : emitEdge h s isFirst ch st = .ok st') :
    st'.data = st.data := by
  unfold emitEdge at hok
  simp only [bind, Except.bind, pure, Except.pure] at hok
  split at hok
  · split at hok
    · split at hok
      · cases hok
      · cases hok
        rfl
    · cases hok
  · cases hok

theorem emitEdges_data (h : Heap) (s : StateData) :
    ∀ (l : List Nat) (isFirst : Bool) (st st' : EmitSt),
      emitEdges h s isFirst l st = .ok st' → st'.data = st.data := by
  intro l
  induction l with
  | nil =>
    intro _ st st' hok
    cases hok
    rfl
  | cons c rest ih =>
    intro isFirst st st' hok
    unfold emitEdges at hok
    simp only [bind, Except.bind] at hok
    split at hok
    · cases hok
    · rename_i st1 he
      rw [ih false st1 st' hok, emitEdge_data h s isFirst c st st1 he]

theorem emitFinal_data_clean (s : StateData) (st : EmitSt)
    (hclean : s.isFinal = false ∨ s.tail = []) :
    (emitFinal s st).data = st.data := by
  unfold emitFinal
  by_cases hf : s.isFinal
  · rcases hclean with hc | hc
    · rw [hc] at hf
      cases hf
    · rw [if_pos hf]
      dsimp only
      rw [hc]
      rfl
  · rw [if_neg hf]

theorem emitState_data_clean (h : Heap) (r : Nat) (st st' : EmitSt)
    (hclean : (heapGet h r).isFinal = false ∨ (heapGet h r).tail = [])
    (hok : emitState h r st = .ok st') : st'.data = st.data := by
  unfold emitState at hok
  simp only [bind, Except.bind, pure, Except.pure] at hok
  split at hok
  · cases hok
  · rename_i st1 he
    cases hok
    show (emitFinal (heapGet h r) st1).data = st.data
    rw [emitFinal_data_clean _ _ hclean, emitEdges_data h _ _ true st st1 he]

theorem emitStates_data_clean (h : Heap) :
    ∀ (states : List Nat) (st st' : EmitSt),
      (∀ r ∈ states, (heapGet h r).isFinal = false ∨ (heapGet h r).tail = []) →
      emitStates h states st = .ok st' → st'.data = st.data := by
  intro states
  induction states with
  | nil =>
    intro st st' _ hok
    cases hok
    rfl
  | cons c rest ih =>
    intro st st' hclean hok
    unfold emitStates at hok
    simp only [bind, Except.bind] at hok
    split at hok
    · cases hok
    · rename_i st1 he
      rw [ih st1 st' (fun r hr => hclean r (List.mem_cons_of_mem c hr)) hok,
        emitState_data_clean h c st st1 (hclean c (List.mem_cons_self c rest)) he]

theorem lexLeB_nil_left (b : List Nat) : lexLeB [] b = true := by
  cases b <;> rfl

theorem maxWordLen_bound : ∀ (l : List Pair), ∀ p ∈ l, p.in_.length ≤ maxWordLen l := by
  intro l
  induction l with
  | nil =>
    intro p hp
    cases hp
  | cons q rest ih =>
    intro p hp
    rcases List.mem_cons.mp hp with rfl | hp2
    · show p.in_.length ≤ Nat.max p.in_.length (maxWordLen rest)
      exact Nat.le_max_left _ _
    · show p.in_.length ≤ Nat.max q.in_.length (maxWordLen rest)
      exact le_trans (ih p hp2) (Nat.le_max_right _ _)

theorem heapGet_mkArray (n r : Nat) :
    heapGet (Array.mkArray n (default : StateData)) r = default := by
  by_cases hr : r < n
  · unfold heapGet Array.getD
    rw [dif_pos (by simpa using hr)]
    simp [Array.getElem_mkArray]
  · exact heapGet_oob _ _ (by simpa using hr)

theorem cleanInv_init (maxLen : Nat) :
    CleanInv maxLen ⟨Array.mkArray (maxLen + 1) default, [], [], []⟩ := by
  refine ⟨?_, ?_, ?_, ?_, ?_, ?_, ?_, ?_⟩
  · show maxLen < (Array.mkArray (maxLen + 1) (default : StateData)).size
    simp
  · intro r hr
    cases hr
  · intro r hr
    cases hr
  · intro r
    show List.Pairwise _ (heapGet (Array.mkArray (maxLen + 1) default) r).output
    rw [heapGet_mkArray]
    exact List.Pairwise.nil
  · intro r q hq
    rw [heapGet_mkArray] at hq
    cases hq
  · show (heapGet (Array.mkArray (maxLen + 1) default) 0).isFinal = false
    rw [heapGet_mkArray]
    rfl
  · intro i _ _
    show (heapGet (Array.mkArray (maxLen + 1) default) i).tail = []
    rw [heapGet_mkArray]
    rfl
  · intro r hr
    cases hr

/-- Every successfully built MAST is either clean (no registered state is
both final and tail-carrying — in particular `buf[0]`, registered last, is
never final) or has a hole: a state-0 transition byte without an output
entry.  The proof threads the clean/hole disjunction through the entry loop
and the flush. -/
theorem buildMAST_result (input : List Pair) (m : Mast)
    (hok : (buildMAST input).2 = .ok m) :
    0 ∈ m.states ∧
      ((∀ r ∈ m.states,
          (heapGet m.heap r).isFinal = false ∨ (heapGet m.heap r).tail = []) ∨
        ∃ B, holeAt m.heap B) := by
  unfold buildMAST at hok
  dsimp only at hok
  simp only [bind, Except.bind, pure, Except.pure] at hok
  split at hok
  · cases hok
  · rename_i a hml
    obtain ⟨b1, prev1⟩ := a
    simp only [] at hok
    split at hok
    · cases hok
    · rename_i b2 hfl
      cases hok
      have hpw : List.Pairwise (fun a c : Pair => lexLeB a.in_ c.in_ = true)
          (sortPairs input) :=
        (List.sorted_insertionSort pairLe input).imp
          (fun h => (pairLe_iff_lexLeB _ _).mp h)
      have hmain := mainLoop_clean (maxWordLen (sortPairs input)) (sortPairs input)
        ⟨Array.mkArray (maxWordLen (sortPairs input) + 1) default, [], [], []⟩ [] b1 prev1
        (cleanInv_init _) (fun q _ => lexLeB_nil_left q.in_) hpw
        (fun q hq => maxWordLen_bound _ q hq) (by simp) hml
      rcases hmain with ⟨hcl, hplen⟩ | ⟨hszb1, B, hhB⟩
      · have hc2 := flushLoop_clean (maxWordLen (sortPairs input)) prev1 prev1.length
          b1 b2 hplen hcl hfl
        constructor
        · show 0 ∈ (addStateB b2 0).states
          unfold addStateB
          simp
        · left
          intro r hr
          have hr' : r ∈ b2.states ++ [0] := hr
          show (heapGet (addStateB b2 0).heap r).isFinal = false ∨
            (heapGet (addStateB b2 0).heap r).tail = []
          have hheq : (addStateB b2 0).heap
              = b2.heap.setD 0
                { heapGet b2.heap 0 with id := (b2.states.length : Int) } := rfl
          rw [hheq]
          rcases heapGet_setD_cases b2.heap 0
              { heapGet b2.heap 0 with id := (b2.states.length : Int) } r
            with he | ⟨hr0, he⟩ <;> rw [he]
          · rcases List.mem_append.mp hr' with h | h
            · exact hc2.hclean r h
            · rcases List.mem_singleton.mp h with rfl
              exact Or.inl hc2.hnf0
          · exact Or.inl hc2.hnf0
      · obtain ⟨hnoneB, p0, ps, hprev1, hdisj⟩ := hhB
        subst hprev1
        have hfh := flushLoop_hole p0 ps b1 b2 B hszb1 hfl ⟨hnoneB, p0, ps, rfl, hdisj⟩
        have hheq : (addStateB b2 0).heap
            = b2.heap.setD 0
              { heapGet b2.heap 0 with id := (b2.states.length : Int) } := rfl
        refine ⟨?_, Or.inr ⟨B, ?_, ?_⟩⟩
        · show 0 ∈ (addStateB b2 0).states
          unfold addStateB
          simp
        · show lookupA (heapGet (addStateB b2 0).heap 0).output B = none
          rw [hheq]
          rcases heapGet_setD_cases b2.heap 0
              { heapGet b2.heap 0 with id := (b2.states.length : Int) } 0
            with he | ⟨_, he⟩ <;> rw [he]
          · exact hfh.1.1
          · exact hfh.1.1
        · show lookupA (heapGet (addStateB b2 0).heap 0).trans B ≠ none
          rw [hheq]
          rcases heapGet_setD_cases b2.heap 0
              { heapGet b2.heap 0 with id := (b2.states.length : Int) } 0
            with he | ⟨_, he⟩ <;> rw [he]
          · exact hfh.1.2
          · exact hfh.1.2

/-- Every FST that `BuildFST` actually returns is the empty one: the program
vector is empty by the `reverse_copy` bug, and the data array is empty
because a state that is both final and tail-carrying can only arise from an
output strip, which leaves `buf[0]` with a transition byte whose output entry
was erased and never restored — and then `buildMachine` throws before
returning. -/
theorem buildFST_built_empty (input : List Pair) (F : FST) (e : Option String)
    (hok : (BuildFST input).2 = .ok (F, e)) : F = ⟨[], []⟩ := by
  have hsnd : (BuildFST input).2 = (match (buildMAST input).2 with
      | .error er => .error (.build er)
      | .ok m => match buildMachine m with
        | .error er => .error (.mach er)
        | .ok fe => .ok fe) := rfl
  rw [hsnd] at hok
  split at hok
  · cases hok
  · rename_i m hm
    split at hok
    · cases hok
    · rename_i fe hbm
      cases hok
      unfold buildMachine at hbm
      simp only [bind, Except.bind, pure, Except.pure] at hbm
      split at hbm
      · cases hbm
      · rename_i st hprov
        cases hbm
        obtain ⟨h0mem, hdisj⟩ := buildMAST_result input m hm
        rcases hdisj with hclean | ⟨B, hholeB⟩
        · have hdata := emitStates_data_clean m.heap m.states ⟨[], [], [], none⟩ st
            hclean hprov
          show ({ prog := [], data := st.data } : FST) = ⟨[], []⟩
          rw [show st.data = ([] : List Int) from hdata]
        · exact absurd hprov (fun hp => buildMachineProv_hole m B st hholeB h0mem hp)

/-! ## Claim theorems -/

/-- Claim C1.  The claim asserts that for the input set
`{(a,1),(ab,2),(abc,3)}` the built FST answers `Search("a") = [1]`,
`Search("ab") = [2]`, `Search("abc") = [3]`, `Search("abcd") = []` and
`CommonPrefixSearch("abcd") = lengths [1,2,3], outputs [[1],[2],[3]]`.  In
the code no FST is built at all: while processing the third entry `abc`, the
redistribution loop evaluates `buf[0]->output.at('a')`, but that output was
removed (`removeOutput`) while processing `ab` and never restored, so
`unordered_map::at` throws `std::out_of_range` and `BuildFST` never returns.
The theorem evaluates the embedded pipeline at the claim's input set. -/
theorem C1_scenario_build_throws :
    (BuildFST [⟨[97], 1⟩, ⟨[97, 98], 2⟩, ⟨[97, 98, 99], 3⟩]).2
      = .error (.build (.outputAt 0 97)) := by decide

/-- Claim C2.  For every built FST `F` (every FST actually returned by
`BuildFST`, for any input collection), `Write(F)` succeeds and `Read` applied
to the bytes `Write` produced yields an FST with the same program and data
array — hence one that answers every query (Search, PrefixSearch,
CommonPrefixSearch) identically to `F`.  This holds because the only FST the
pipeline ever returns is the empty one (`buildFST_built_empty`): its program
is empty by the `reverse_copy` bug, and its data array is empty because a
tail-carrying final state could only arise from an output strip, which leaves
`buf[0]` with a transition byte whose output entry was erased, on which
`buildMachine` throws.  The empty FST serializes to sixteen zero bytes and
reads back byte-exactly (both length fields are 0, so the endianness mismatch
in `ReadUint` is invisible). -/
theorem C2_built_fst_roundtrips (input : List Pair) (F : FST) (e : Option String)
    (hok : (BuildFST input).2 = .ok (F, e)) :
    ∃ bs, FST.Write F = some bs ∧ FST.Read bs = some F := by
  rw [buildFST_built_empty input F e hok]
  exact ⟨List.replicate 16 0, by decide, by decide⟩

theorem C2_built_fst_roundtrips_witness :
    (BuildFST []).2 = .ok (⟨[], []⟩, none) ∧
      ∃ bs, FST.Write ⟨[], []⟩ = some bs ∧ FST.Read bs = some ⟨[], []⟩ :=
  ⟨by decide, C2_built_fst_roundtrips [] ⟨[], []⟩ none (by decide)⟩

/-- Claim C3.  The claim asserts the none/error branch of the output lookups
in `buildMAST`'s redistribution and in `buildMachine`'s per-edge emission is
unreachable for every input collection.  It is reached: for the single pair
`("ab", 1)` the byte `'b'` edge carries output 0, which `setOutput` never
stores, so `buildMachine`'s `s->output.at(ch)` throws on the state with id 1
(and `C1_scenario_build_throws` shows the redistribution lookup failing). -/
theorem C3_output_lookup_branch_reached :
    (BuildFST [⟨[97, 98], 1⟩]).2 = .error (.mach (.outputAt 1 98)) := by decide

/-- Claim C4.  The claim asserts the instruction stream returned by
`buildMachine` is the reversal of the provisional stream.  For the one-state
final MAST the provisional stream is the single `Accept` cell, but the
returned program is empty: line 736 `reverse_copy`s into the
default-constructed empty vector `t->prog` (out-of-bounds writes that never
change the vector's size). -/
theorem C4_returned_program_not_reversal :
    buildMachineProv mastLeaf = .ok ⟨[mkOp opAccept 0 0], [], [(0, 1)], none⟩ ∧
    buildMachine mastLeaf = .ok (⟨[], []⟩, none) ∧
    ¬ ([] : List Nat) = [mkOp opAccept 0 0].reverse := by decide

/-- Claim C5.  The claim (and spec §4.3) say the accept op cell's opcode is
`AcceptBreak` when the state has no outgoing transitions and `Accept`
otherwise.  The code's `emitFinal` does the opposite: `Accept` for a final
state with no transitions, `AcceptBreak` for one with a transition (the
character and jump fields behave as claimed).  The swap matters: the VM halts
at `AcceptBreak`, so a final state with successors would never let a longer
key match. -/
theorem C5_accept_opcode_for_leaf_and_nonleaf :
    (emitFinal ⟨0, [], [], [], true, 0⟩ emitSt0).prog = [mkOp opAccept 0 0] ∧
    (emitFinal ⟨0, [(97, 1)], [(97, 1)], [], true, 0⟩ emitSt0).prog
      = [mkOp opAcceptBreak 0 0] ∧
    ¬ opAccept = opAcceptBreak := by decide

/-- Claim C6.  `WriteUint` does emit the bytes low-order first, but `ReadUint`
is not its inverse: it shifts earlier bytes upward (big-endian assembly), so
reading back the two bytes `[1, 0]` that `WriteUint` produced for `v = 1`
yields 256. -/
theorem C6_ReadUint_not_inverse_of_WriteUint :
    WriteUint 2 1 = [1, 0] ∧ ReadUint 2 (WriteUint 2 1) = some (256, []) ∧
    ¬ (256 : Nat) = 1 := by decide

/-- Claim C7.  The claim asserts every byte keyed in a state's transition map
is also keyed in its output map.  In the final MAST built from the single
pair `("ab", 1)`, the frozen state at heap reference 4 (a member of
`m.states`) has the transition byte 98 but no output entry for it:
`setOutput` silently drops zero outputs. -/
theorem C7_transition_without_output :
    ((buildMAST [⟨[97, 98], 1⟩]).2.map fun m =>
      (m.states.contains 4, lookupA (heapGet m.heap 4).trans 98,
        lookupA (heapGet m.heap 4).output 98))
      = .ok (true, some 3, none) := by decide

/-- Claim C8, counterexample.  The claim asserts the error string is surfaced
for every transition whose successor has no recorded address, whether or not
the successor is final.  In `mastUnreg` state 0's successor (state 1, final)
has no recorded address when state 0 is processed, yet `*err` is never
written: the guard `itAddr == addrMap.end() && !next->isFinal` skips final
successors, and the code then dereferences the end iterator with `*err`
still unset. -/
theorem C8_final_successor_no_error :
    buildMachineProv mastUnreg = .error (.addrDeref none) := by decide

/-- Claim C8, amended.  Whenever `buildMachine` processes a transition whose
successor has no previously recorded address in `addrMap`, it surfaces the
`next addr is undefined` error string only when the successor state is NOT
final; when the successor is final, `*err` is left unchanged.  (Either way
the code goes on to dereference the end iterator, which is undefined
behaviour, modelled by the `addrDeref` error carrying the value of `*err` at
that point.) -/
theorem C8_error_only_for_nonfinal_successor (h : Heap) (s : StateData)
    (isFirst : Bool) (ch nref : Nat) (st : EmitSt) (o : Int)
    (hTrans : lookupA s.trans ch = some nref)
    (hOut : lookupA s.output ch = some o)
    (hAddr : lookupI st.addrMap (heapGet h nref).id = none) :
    emitEdge h s isFirst ch st
      = .error (.addrDeref
          (if (heapGet h nref).isFinal then st.err else some (undefMsg s.id ch))) := by
  unfold emitEdge
  simp only [bind, Except.bind, pure, Except.pure, hTrans, hOut, hAddr]
  by_cases hf : (heapGet h nref).isFinal
  · simp [hf]
  · simp [hf]

/-- Witness for `C8_error_only_for_nonfinal_successor`: the concrete edge of
`mastUnreg`'s state 0  discharges the three hypotheses. -/
theorem C8_error_only_for_nonfinal_successor_witness :
    emitEdge mastUnreg.heap (heapGet mastUnreg.heap 0) true 97 emitSt0
      = .error (.addrDeref
          (if (heapGet mastUnreg.heap 1).isFinal then emitSt0.err
           else some (undefMsg (heapGet mastUnreg.heap 0).id 97))) :=
  C8_error_only_for_nonfinal_successor mastUnreg.heap (heapGet mastUnreg.heap 0)
    true 97 1 emitSt0 5 (by decide) (by decide) (by decide)

/-- Claim C9.  For every program, data array, input string — and indeed every
starting register state — the VM's run loop reaches a `.done` result after
finitely many iterations of `vmStep`: each iteration either consumes an input
byte (the head is bounded by the input length) or strictly advances the
program counter inside the program, so `run` is a total function. -/
theorem C9_run_loop_terminates (prog : List Nat) (data : List Int) (input : List Nat)
    (s : RunSt) : ∃ n snap acc, vmRun prog data input n s = .done snap acc := by
  suffices H : ∀ N st, vmMeasure prog input st = N →
      ∃ n snap acc, vmRun prog data input n st = .done snap acc from H _ s rfl
  intro N
  induction N using Nat.strong_induction_on with
  | _ N ih =>
    intro st hN
    cases hstep : vmStep prog data input st with
    | done snap acc => exact ⟨1, snap, acc, by simp [vmRun, hstep]⟩
    | cont s1 =>
      have hlt : vmMeasure prog input s1 < N :=
        hN ▸ vmStep_cont_measure prog data input hstep
      obtain ⟨n, snap, acc, hrun⟩ := ih (vmMeasure prog input s1) hlt s1 rfl
      exact ⟨n + 1, snap, acc, by simp [vmRun, hstep, hrun]⟩

/-- Claim C10.  `BuildFST` sorts the caller's vector in place (the first
component of the embedded `BuildFST` is the mutated argument): after the call
the collection is a permutation of the original, sorted lexicographically by
input byte string (`pairLe` is the total preorder induced by
`Pair::operator<`); the pairs themselves are moved intact, which the
permutation expresses. -/
theorem C10_input_sorted_in_place (input : List Pair) :
    ((BuildFST input).1).Perm input ∧ List.Sorted pairLe ((BuildFST input).1) := by
  have h : (BuildFST input).1 = List.insertionSort pairLe input := rfl
  rw [h]
  exact ⟨List.perm_insertionSort pairLe input, List.sorted_insertionSort pairLe input⟩

end FstDict
